import Mathlib

/-!
Shallow embedding of the arRPC process-detection engine and its transport
layer, translated from the TypeScript sources.  JavaScript strings are
modelled as `List Char`, JS `Map`s and plain objects as insertion-ordered
association lists, and Node stream buffers as `List Nat` (byte lists).
-/

set_option autoImplicit false

abbrev JSStr := List Char

/-- Boolean test that `pat` starts the list `s` (JS `String.prototype.startsWith`). -/
def leadsList : JSStr → JSStr → Bool
  | [], _ => true
  | _ :: _, [] => false
  | p :: ps, c :: cs => if p = c then leadsList ps cs else false

/-- JS `String.prototype.endsWith`. -/
def trailsList (pat s : JSStr) : Bool :=
  leadsList pat.reverse s.reverse

/-- JS `String.prototype.includes`: `pat` occurs somewhere in `s`. -/
def jsIncludes (s pat : JSStr) : Bool :=
  if leadsList pat s then true
  else
    match s with
    | [] => false
    | _ :: cs => jsIncludes cs pat

/-- JS `String.prototype.replace` with a string pattern: replaces only the
first occurrence (or is the identity when `pat` does not occur). -/
def jsReplaceFirst : JSStr → JSStr → JSStr → JSStr
  | [], pat, rep => if leadsList pat [] then rep else []
  | c :: cs, pat, rep =>
    if leadsList pat (c :: cs) then rep ++ (c :: cs).drop pat.length
    else c :: jsReplaceFirst cs pat rep

/-- JS global-regex replace with a fixed nonempty pattern, written with an
explicit fuel argument so that it is structurally recursive: replaces every
(non-overlapping, left-to-right) occurrence.  Each step consumes at least one
character of `s`, so any fuel above `s.length` computes the fixpoint. -/
def jsReplaceAllFuel : Nat → JSStr → JSStr → JSStr → JSStr
  | 0, s, _, _ => s
  | Nat.succ f, s, pat, rep =>
    if pat = [] then s
    else if leadsList pat s then rep ++ jsReplaceAllFuel f (s.drop pat.length) pat rep
    else
      match s with
      | [] => []
      | c :: cs => c :: jsReplaceAllFuel f cs pat rep

/-- JS global-regex replace (the sources only use fixed nonempty patterns;
the empty pattern is mapped to the identity). -/
def jsReplaceAll (s pat rep : JSStr) : JSStr :=
  jsReplaceAllFuel (s.length + 1) s pat rep

/-- JS `String.prototype.toLowerCase` (ASCII range, as used by the sources). -/
def toLowerStr (s : JSStr) : JSStr := s.map Char.toLower

/-- JS `String.prototype.split("/")`. -/
def splitSlash : JSStr → List JSStr
  | [] => [[]]
  | c :: cs =>
    if c = '/' then [] :: splitSlash cs
    else
      match splitSlash cs with
      | [] => [[c]]
      | h :: t => (c :: h) :: t

/-- JS `array.pop()` on the result of a split: the last segment. -/
def lastSeg (s : JSStr) : JSStr := (splitSlash s).reverse.headD []

/-! ### Insertion-ordered maps (JS `Map` / plain-object semantics) -/

/-- Lookup (JS `Map.prototype.get` / property read); `none` is `undefined`. -/
def jmGet {α : Type} : List (JSStr × α) → JSStr → Option α
  | [], _ => none
  | (k', v) :: rest, k => if k' = k then some v else jmGet rest k

/-- JS `Map.prototype.set` / property write: update in place, else append. -/
def jmSet {α : Type} : List (JSStr × α) → JSStr → α → List (JSStr × α)
  | [], k, v => [(k, v)]
  | (k', v') :: rest, k, v =>
    if k' = k then (k', v) :: rest else (k', v') :: jmSet rest k v

/-- JS `Map.prototype.delete` / `delete obj[k]`. -/
def jmDel {α : Type} : List (JSStr × α) → JSStr → List (JSStr × α)
  | [], _ => []
  | (k', v) :: rest, k => if k' = k then jmDel rest k else (k', v) :: jmDel rest k

/-- JS `Object.keys` / `Map.prototype.keys` (insertion order). -/
def jmKeys {α : Type} : List (JSStr × α) → List JSStr
  | [] => []
  | (k, _) :: rest => k :: jmKeys rest

/-- Adding a key to a JS `Record`/`Set`: keeps first-insertion position. -/
def setAdd (s : List JSStr) (k : JSStr) : List JSStr :=
  if k ∈ s then s else s ++ [k]

/-- JS `Set` built from a list (insertion order, first occurrence kept). -/
def setList (l : List JSStr) : List JSStr := l.foldl setAdd []

/-! ### Game database (`src/process/downloader.ts`) -/

/-- Minified executable entry (`DetectableExecutable`): lowercased name `n`,
optional required-argument substring `a`, strict flag `s` (`1` when the
upstream name carried the `>` marker). -/
structure DetectableExecutable where
  n : JSStr
  a : Option JSStr := none
  s : Option Nat := none
deriving DecidableEq, Repr

/-- Minified game record (`DetectableGame`): id `i`, name `n`, executables `e`. -/
structure DetectableGame where
  i : JSStr
  n : JSStr
  e : Option (List DetectableExecutable) := none
deriving DecidableEq, Repr

/-- One game detected by a scan (`DetectedGame` in `src/process/index.ts`). -/
structure DetectedGame where
  id : JSStr
  name : JSStr
  pid : Nat
  timestamp : Nat
deriving DecidableEq, Repr

/-- `ProcessServer.init`: pre-process the DB into a map keyed by executable
filename (last path segment of the lowercased name). -/
def buildDetectionMap (db : List DetectableGame) : List (JSStr × List DetectableGame) :=
  db.foldl
    (fun dm game =>
      match game.e with
      | some execs =>
        execs.foldl
          (fun dm exec =>
            let name := toLowerStr exec.n
            let key := (splitSlash name).reverse.headD name
            jmSet dm key ((jmGet dm key).getD [] ++ [game]))
          dm
      | none => dm)
    []

/-! ### Process scanning (`src/process/index.ts`) -/

/-- One entry of the platform process list: `(pid, path, args, cwd)`. -/
structure ProcessEntry where
  pid : Nat
  path : JSStr
  args : List JSStr
  cwd : JSStr
deriving DecidableEq, Repr

/-- `ProcessServer.isValidProcess`. -/
def isValidProcess (pid : Nat) (path : JSStr) : Bool :=
  if pid = 1 then false
  else if path.length < 1 then false
  else if leadsList ("/proc".data) path then false
  else if leadsList ("/usr/lib/".data) path then false
  else if jsIncludes path ("systemd".data) then false
  else if leadsList ("c:/windows".data) path then false
  else if jsIncludes path ("webhelper".data) then false
  else if trailsList ("/bin/dolphin".data) path then false
  else true

/-- `ProcessServer.stripBitness`: global removal of `.x64`, `_64`, `x64`, `64`. -/
def stripBitness (name : JSStr) : JSStr :=
  jsReplaceAll (jsReplaceAll (jsReplaceAll (jsReplaceAll name (".x64".data) []) ("_64".data) []) ("x64".data) []) ("64".data) []

/-- Path normalisation at the top of the scan loop:
`_path.toLowerCase().replaceAll("\\", "/")`. -/
def normPath (s : JSStr) : JSStr := jsReplaceAll (toLowerStr s) ("\\".data) ("/".data)

/-- Cache signature `` `${rawPath}\0${args}` + " " + `${cwdPath}` `` (the JS
template stringifies the argument array by joining with commas). -/
def cacheKeyOf (rawPath : JSStr) (args : List JSStr) (cwdPath : JSStr) : JSStr :=
  rawPath ++ '\x00' :: (List.intercalate [','] args ++ ' ' :: cwdPath)

/-- The candidate-key set built for index lookup (a JS `Set`, insertion
order, duplicates collapsed): filename, filename with `.exe` replaced,
bitness-stripped filename, bitness-stripped exe-less filename. -/
def scanCandidates (filename : JSStr) : List JSStr :=
  setList
    [filename,
     jsReplaceFirst filename (".exe".data) [],
     stripBitness filename,
     stripBitness (jsReplaceFirst filename (".exe".data) [])]

/-- JS `timestamps[id] || now` (`undefined` and `0` are falsy). -/
def truthyOr (ts : List (JSStr × Nat)) (id : JSStr) (now : Nat) : Nat :=
  match jmGet ts id with
  | some t => if t = 0 then now else t
  | none => now

/-- The per-executable test inside `ProcessServer.checkGameMatch`. -/
def execMatch (exec : DetectableExecutable) (candidateKey filename fullPath cwdPath : JSStr)
    (args : List JSStr) : Bool :=
  let argsOk :=
    match exec.a with
    | some a =>
      if a = [] then true
      else jsIncludes (toLowerStr (List.intercalate [' '] args)) (toLowerStr a)
    | none => true
  if !argsOk then false
  else if exec.s = some 1 then decide (exec.n = filename)
  else
    decide (exec.n = filename) ||
    decide (exec.n = jsReplaceFirst filename (".exe".data) []) ||
    decide (exec.n = filename ++ (".exe".data)) ||
    jsIncludes (cwdPath ++ '/' :: fullPath) ('/' :: exec.n) ||
    decide (exec.n = candidateKey)

/-- `ProcessServer.checkGameMatch`. -/
def checkGameMatch (game : DetectableGame) (candidateKey filename fullPath cwdPath : JSStr)
    (args : List JSStr) : Bool :=
  match game.e with
  | none => false
  | some execs => execs.any (fun exec => execMatch exec candidateKey filename fullPath cwdPath args)

/-- State accumulated by the per-process loop of `ProcessServer.scan`:
the scan's result mapping, the shared signature cache, and the set of
signatures seen in this scan (`cacheKeys`). -/
structure ScanAcc where
  detected : List (JSStr × DetectedGame)
  cache : List (JSStr × DetectedGame)
  seen : List JSStr
deriving DecidableEq, Repr

/-- The body of the `for (const game of matches)` loop in
`ProcessServer.scan`: on a match, record the game in the result mapping and
cache the signature. -/
def matchGame (ts : List (JSStr × Nat)) (now : Nat) (pid : Nat)
    (cacheKey candidate filename rawPath cwdPath : JSStr) (args : List JSStr)
    (dc : List (JSStr × DetectedGame) × List (JSStr × DetectedGame))
    (game : DetectableGame) :
    List (JSStr × DetectedGame) × List (JSStr × DetectedGame) :=
  if checkGameMatch game candidate filename rawPath cwdPath args then
    let m : DetectedGame := ⟨game.i, game.n, pid, truthyOr ts game.i now⟩
    (jmSet dc.1 game.i m, jmSet dc.2 cacheKey m)
  else dc

/-- The candidate/game matching loops of `ProcessServer.scan` (steps 2-3 of
the uncached branch), threading the `(detectedGames, cache)` pair. -/
def matchCandidate (ts : List (JSStr × Nat)) (now : Nat)
    (dmap : List (JSStr × List DetectableGame)) (pid : Nat)
    (cacheKey filename rawPath cwdPath : JSStr) (args : List JSStr)
    (dc : List (JSStr × DetectedGame) × List (JSStr × DetectedGame))
    (candidate : JSStr) :
    List (JSStr × DetectedGame) × List (JSStr × DetectedGame) :=
  match jmGet dmap candidate with
  | none => dc
  | some gameList =>
    gameList.foldl (matchGame ts now pid cacheKey candidate filename rawPath cwdPath args) dc

/-- One iteration of the `for (const [pid, _path, args, _cwdPath] of processes)`
loop in `ProcessServer.scan`. -/
def stepProcess (dmap : List (JSStr × List DetectableGame)) (ts : List (JSStr × Nat))
    (now : Nat) (acc : ScanAcc) (p : ProcessEntry) : ScanAcc :=
  let rawPath := normPath p.path
  let cwdPath := normPath p.cwd
  let cacheKey := cacheKeyOf rawPath p.args cwdPath
  let seen1 := setAdd acc.seen cacheKey
  match jmGet acc.cache cacheKey with
  | some cached =>
    let c : DetectedGame := { cached with pid := p.pid, timestamp := truthyOr ts cached.id now }
    ⟨jmSet acc.detected c.id c, jmSet acc.cache cacheKey c, seen1⟩
  | none =>
    if !isValidProcess p.pid rawPath then ⟨acc.detected, acc.cache, seen1⟩
    else
      let filename := lastSeg rawPath
      if filename = [] then ⟨acc.detected, acc.cache, seen1⟩
      else
        let dc :=
          (scanCandidates filename).foldl
            (matchCandidate ts now dmap p.pid cacheKey filename rawPath cwdPath p.args)
            (acc.detected, acc.cache)
        ⟨dc.1, dc.2, seen1⟩

/-- Events handed to the shared handler by the engine
(`handlers.message({socketId: id}, { cmd: "SET_ACTIVITY", ... })`). -/
inductive ActivityEvent where
  | set (socketId name : JSStr) (start : Option Nat) (pid : Nat)
  | clear (socketId : JSStr) (pid : Option Nat)
deriving DecidableEq, Repr

/-- Engine state mutated by `handleScanResults`/`cleanupLostGames`, plus the
events emitted while processing. -/
structure EmitState where
  ts : List (JSStr × Nat)
  names : List (JSStr × JSStr)
  pids : List (JSStr × Nat)
  events : List ActivityEvent
deriving DecidableEq, Repr

/-- The body of the `for (const {id, name, pid, timestamp} of games)` loop in
`ProcessServer.handleScanResults`. -/
def handleOne (st : EmitState) (g : DetectedGame) : EmitState :=
  let names1 := jmSet st.names g.id g.name
  let pids1 := jmSet st.pids g.id g.pid
  let ts1 :=
    if (jmGet st.ts g.id).getD 0 = 0 then jmSet st.ts g.id g.timestamp else st.ts
  { ts := ts1, names := names1, pids := pids1,
    events := st.events ++ [ActivityEvent.set g.id g.name (jmGet ts1 g.id) g.pid] }

/-- The body of the lost-game loop in `ProcessServer.cleanupLostGames`. -/
def cleanupOne (activeIds : List JSStr) (st : EmitState) (id : JSStr) : EmitState :=
  if id ∈ activeIds then st
  else
    { ts := jmDel st.ts id, names := jmDel st.names id, pids := jmDel st.pids id,
      events := st.events ++ [ActivityEvent.clear id (jmGet st.pids id)] }

/-- `ProcessServer.cleanupLostGames`. -/
def cleanupLostGames (activeIds : List JSStr) (st : EmitState) : EmitState :=
  (jmKeys st.ts).foldl (cleanupOne activeIds) st

/-- `ProcessServer.handleScanResults` (set-activity loop followed by the
lost-games cleanup). -/
def handleScanResults (games : List DetectedGame) (st : EmitState) : EmitState :=
  cleanupLostGames (games.map (·.id)) (games.foldl handleOne st)

/-- Decimal digit characters; used to spell JS array indices. -/
def decDigit (n : Nat) : Char :=
  match n with
  | 0 => '0'
  | 1 => '1'
  | 2 => '2'
  | 3 => '3'
  | 4 => '4'
  | 5 => '5'
  | 6 => '6'
  | 7 => '7'
  | 8 => '8'
  | _ => '9'

/-- Decimal spelling with fuel (structurally recursive); any fuel above the
number of digits computes the spelling. -/
def natToStrFuel : Nat → Nat → JSStr
  | 0, _ => []
  | Nat.succ f, n =>
    if n < 10 then [decDigit n] else natToStrFuel f (n / 10) ++ [decDigit (n % 10)]

/-- Decimal spelling of a natural number (the string a JS `for...in` loop
produces for an array index). -/
def natToStr (n : Nat) : JSStr := natToStrFuel (n + 1) n

/-- The cache-maintenance step of `ProcessServer.scan` (lines 204-219).
`for (const key in fetchedCacheKeys) delete fetchedCacheKeys[key]` only blanks
that local array, and `for (const key in globalCacheKeys)` iterates the
*array indices* `"0"`, `"1"`, ..., so the deletions target those index
strings as cache keys. -/
def cacheGc (cache : List (JSStr × DetectedGame)) (seen : List JSStr) :
    List (JSStr × DetectedGame) :=
  if seen.length * 2 < cache.length then
    (List.range cache.length).foldl (fun c i => jmDel c (natToStr i)) cache
  else cache

/-- The engine's mutable maps (`timestamps`, `names`, `pids`, `cache`). -/
structure EngineState where
  timestamps : List (JSStr × Nat)
  names : List (JSStr × JSStr)
  pids : List (JSStr × Nat)
  cache : List (JSStr × DetectedGame)
deriving DecidableEq, Repr

/-- Result of one `ProcessServer.scan` call: the scan's result mapping, the
updated engine state, and the activity events emitted. -/
structure ScanResult where
  detected : List (JSStr × DetectedGame)
  state : EngineState
  events : List ActivityEvent
deriving DecidableEq, Repr

/-- `ProcessServer.scan` for one process-list snapshot taken at time `now`. -/
def scan (dmap : List (JSStr × List DetectableGame)) (st : EngineState)
    (ps : List ProcessEntry) (now : Nat) : ScanResult :=
  let acc := ps.foldl (stepProcess dmap st.timestamps now) ⟨[], st.cache, []⟩
  let games := acc.detected.map (·.2)
  let em := handleScanResults games ⟨st.timestamps, st.names, st.pids, []⟩
  let cache1 := cacheGc acc.cache acc.seen
  ⟨acc.detected, ⟨em.ts, em.names, em.pids, cache1⟩, em.events⟩

/-! ### WebSocket transport (`WSServer`) and shared parsing helpers -/

/-- JS `parseInt(s, 10)`: optional whitespace, optional sign, leading decimal
digits; `none` models `NaN`. -/
def jsParseInt (s : JSStr) : Option Int :=
  let s1 := s.dropWhile (fun c => c == ' ' || c == '\t' || c == '\n' || c == '\r')
  let digitsVal : JSStr → Option Nat := fun l =>
    let ds := l.takeWhile Char.isDigit
    if ds = [] then none
    else some (ds.foldl (fun a c => a * 10 + (c.toNat - 48)) 0)
  match s1 with
  | '-' :: rest => (digitsVal rest).map (fun n => -(n : Int))
  | '+' :: rest => (digitsVal rest).map (fun n => (n : Int))
  | _ => (digitsVal s1).map (fun n => (n : Int))

/-- Outcome of `WSServer.onConnection` for one upgrade request. -/
inductive WSOutcome where
  | closed
  | accepted (clientId : JSStr)
deriving DecidableEq, Repr

/-- `WSServer.onConnection`: query parameters `v`, `encoding`, `client_id`
(absent parameters default to `"1"`, `"json"`, `""`).  `accepted` means the
`connection` handler was invoked with `clientId` recorded on the socket. -/
def wsOnConnection (v encoding client_id : Option JSStr) : WSOutcome :=
  let ver := jsParseInt (v.getD ("1".data))
  let enc := encoding.getD ("json".data)
  let clientId := client_id.getD []
  if enc ≠ ("json".data) then WSOutcome.closed
  else if ver ≠ some 1 then WSOutcome.closed
  else WSOutcome.accepted clientId

/-- Minimal JSON value model (enough to express field truthiness). -/
inductive JVal where
  | jnull
  | jbool (b : Bool)
  | jnum (n : Int)
  | jstr (s : JSStr)
  | jobj (fields : List (JSStr × JVal))

/-- JS truthiness of a property read (`none` is `undefined`). -/
def jsTruthy : Option JVal → Bool
  | none => false
  | some JVal.jnull => false
  | some (JVal.jbool b) => b
  | some (JVal.jnum n) => decide (n ≠ 0)
  | some (JVal.jstr s) => decide (s ≠ [])
  | some (JVal.jobj _) => true

/-- `IPCServer.onMessage`: drops payloads without truthy `args` and `cmd`
fields; `some` is the payload handed to the shared `message` handler. -/
def ipcOnMessage (msg : List (JSStr × JVal)) : Option (List (JSStr × JVal)) :=
  if !jsTruthy (jmGet msg ("args".data)) || !jsTruthy (jmGet msg ("cmd".data)) then none
  else some msg

/-- `WSServer.onMessage`: every parsed payload reaches the shared handler. -/
def wsOnMessage (msg : List (JSStr × JVal)) : Option (List (JSStr × JVal)) :=
  some msg

/-! ### Native IPC transport (`IPCServer`, `processSocketReadable`) -/

/-- Outcome of the `handshake` listener in `IPCServer.onConnection`. -/
inductive HandshakeOutcome where
  | closed (code : Int)
  | connected (clientId : JSStr)
deriving DecidableEq, Repr

/-- The first `handshake` event in `IPCServer.onConnection` (the
`AWAITING_HANDSHAKE` state): version and `client_id` checks. -/
def ipcOnHandshake (v client_id : Option JSStr) : HandshakeOutcome :=
  let ver := jsParseInt (v.getD ("1".data))
  let clientId := client_id.getD []
  if ver ≠ some 1 then HandshakeOutcome.closed 4004
  else if clientId = [] then HandshakeOutcome.closed 4000
  else HandshakeOutcome.connected clientId

/-- `connection` events emitted for a handshake outcome (the client ids the
shared `connection` handler sees). -/
def connectionEmits : HandshakeOutcome → List JSStr
  | HandshakeOutcome.closed _ => []
  | HandshakeOutcome.connected c => [c]

/-- `MAX_IPC_PAYLOAD` (5 MiB). -/
abbrev MAX_IPC_PAYLOAD : Nat := 5 * 1024 * 1024

/-- `Buffer.prototype.readInt32LE` of four bytes. -/
def readInt32LE (b0 b1 b2 b3 : Nat) : Int :=
  let u : Nat := b0 + 256 * b1 + 65536 * b2 + 16777216 * b3
  if u < 2147483648 then (u : Int) else (u : Int) - 4294967296

/-- `Buffer.prototype.writeInt32LE` of a small non-negative number. -/
def writeInt32LE (n : Nat) : List Nat :=
  [n % 256, n / 256 % 256, n / 65536 % 256, n / 16777216 % 256]

/-- The `encode` helper: `int32 type | int32 size | payload` (the JSON
serialisation of the payload is abstracted to its byte list). -/
def encodeFrame (ty : Nat) (payload : List Nat) : List Nat :=
  writeInt32LE ty ++ writeInt32LE payload.length ++ payload

/-- The five frame types (`HANDSHAKE=0, FRAME=1, CLOSE=2, PING=3, PONG=4`). -/
def ipcTypes : List Int := [0, 1, 2, 3, 4]

/-- Observable actions of the frame reader: emitted socket events, plus
`closed` for the `CLOSE`-frame teardown (`socket.end(); socket.destroy()`). -/
inductive IPCEvent (α : Type) where
  | ping (d : α)
  | pong (d : α)
  | handshake (d : α)
  | request (d : α)
  | closed
deriving DecidableEq, Repr

inductive SockStatus where
  | alive
  | destroyed
deriving DecidableEq, Repr

/-- State of one connection after running the reader: events emitted so far,
payloads echoed as `PONG` frames, bytes still buffered, liveness. -/
structure ReaderResult (α : Type) where
  events : List (IPCEvent α)
  pongs : List α
  buffer : List Nat
  status : SockStatus
deriving DecidableEq, Repr

/-- `processSocketReadable`, parameterised by the JSON parser applied to the
payload bytes.  Mirrors the loop: header read, size guard, put-back on short
payloads, type guard, parse (failures skip the frame), dispatch. -/
def processSocketReadable {α : Type} (parse : List Nat → Option α) (buf : List Nat) :
    ReaderResult α :=
  match buf with
  | b0 :: b1 :: b2 :: b3 :: b4 :: b5 :: b6 :: b7 :: rest =>
    let ty := readInt32LE b0 b1 b2 b3
    let dataSize := readInt32LE b4 b5 b6 b7
    if dataSize < 0 ∨ (MAX_IPC_PAYLOAD : Int) < dataSize then
      ⟨[], [], rest, SockStatus.destroyed⟩
    else if rest.length < dataSize.toNat then
      ⟨[], [], b0 :: b1 :: b2 :: b3 :: b4 :: b5 :: b6 :: b7 :: rest, SockStatus.alive⟩
    else
      let body := rest.take dataSize.toNat
      let rest2 := rest.drop dataSize.toNat
      if ty ∉ ipcTypes then ⟨[], [], rest2, SockStatus.destroyed⟩
      else
        match parse body with
        | none => processSocketReadable parse rest2
        | some d =>
          if ty = 3 then
            let r := processSocketReadable parse rest2
            ⟨IPCEvent.ping d :: r.events, d :: r.pongs, r.buffer, r.status⟩
          else if ty = 4 then
            let r := processSocketReadable parse rest2
            ⟨IPCEvent.pong d :: r.events, r.pongs, r.buffer, r.status⟩
          else if ty = 0 then
            let r := processSocketReadable parse rest2
            ⟨IPCEvent.handshake d :: r.events, r.pongs, r.buffer, r.status⟩
          else if ty = 1 then
            let r := processSocketReadable parse rest2
            ⟨IPCEvent.request d :: r.events, r.pongs, r.buffer, r.status⟩
          else ⟨[IPCEvent.closed], [], rest2, SockStatus.destroyed⟩
  | _ => ⟨[], [], buf, SockStatus.alive⟩
termination_by buf.length
decreasing_by all_goals simp [List.length_drop]; omega

/-- Delivery of one chunk of bytes to a connection (a `readable` event):
destroyed sockets receive nothing. -/
def feedChunk {α : Type} (parse : List Nat → Option α) (r : ReaderResult α)
    (chunk : List Nat) : ReaderResult α :=
  match r.status with
  | SockStatus.destroyed => r
  | SockStatus.alive =>
    let r2 := processSocketReadable parse (r.buffer ++ chunk)
    ⟨r.events ++ r2.events, r.pongs ++ r2.pongs, r2.buffer, r2.status⟩

/-- A fresh connection. -/
def newConn (α : Type) : ReaderResult α := ⟨[], [], [], SockStatus.alive⟩

/-- Feeding a sequence of byte chunks to a fresh connection. -/
def feedAll {α : Type} (parse : List Nat → Option α) (chunks : List (List Nat)) :
    ReaderResult α :=
  chunks.foldl (feedChunk parse) (newConn α)

/-- The server's view: one reader state per connection; a chunk arriving on
connection `i` is processed by that connection's reader only. -/
def serverDeliver {α : Type} (parse : List Nat → Option α) :
    List (ReaderResult α) → Nat → List Nat → List (ReaderResult α)
  | [], _, _ => []
  | c :: cs, 0, chunk => feedChunk parse c chunk :: cs
  | c :: cs, Nat.succ i, chunk => c :: serverDeliver parse cs i chunk

/-- Events the reader emits for a frame of type `ty` carrying decoded
payload `d` (`closed` standing for the CLOSE-frame teardown). -/
def eventsOf {α : Type} (ty : Nat) (d : α) : List (IPCEvent α) :=
  if ty = 3 then [IPCEvent.ping d]
  else if ty = 4 then [IPCEvent.pong d]
  else if ty = 0 then [IPCEvent.handshake d]
  else if ty = 1 then [IPCEvent.request d]
  else [IPCEvent.closed]

/-- Payloads echoed back as `PONG` frames for a frame of type `ty`. -/
def pongsOf {α : Type} (ty : Nat) (d : α) : List α :=
  if ty = 3 then [d] else []

/-- Connection liveness after handling one frame of type `ty`. -/
def statusOf (ty : Nat) : SockStatus :=
  if ty = 2 then SockStatus.destroyed else SockStatus.alive

/-- Stale scan-cache contents used to exhibit the broken cache sweep: three
cached signatures, none of which will be seen by the next (empty) scan. -/
def staleCache : List (JSStr × DetectedGame) :=
  [(cacheKeyOf ("c:/g/a.exe".data) [] [], ⟨("1".data), ("A".data), 5, 10⟩),
   (cacheKeyOf ("c:/g/b.exe".data) [] [], ⟨("2".data), ("B".data), 6, 10⟩),
   (cacheKeyOf ("c:/g/c.exe".data) [] [], ⟨("3".data), ("C".data), 7, 10⟩)]

/-- The signature key the scan loop computes for a process. -/
def keyOfP (p : ProcessEntry) : JSStr :=
  cacheKeyOf (normPath p.path) p.args (normPath p.cwd)

/-- The filename the scan loop computes for a process. -/
def fnOfP (p : ProcessEntry) : JSStr := lastSeg (normPath p.path)

/-- Whether the candidate/game loops would record any match for a process
(a function of the process and the detection index only). -/
def anyMatchOf (dmap : List (JSStr × List DetectableGame)) (p : ProcessEntry) : Bool :=
  (scanCandidates (fnOfP p)).any (fun cand =>
    ((jmGet dmap cand).getD []).any (fun g =>
      checkGameMatch g cand (fnOfP p) (normPath p.path) (normPath p.cwd) p.args))

/-- Invariant of the scan's result mapping: every entry is keyed by its
game id and carries the engine timestamp for that id (or `now`). -/
def detectedOk (ts : List (JSStr × Nat)) (now : Nat)
    (d : List (JSStr × DetectedGame)) : Prop :=
  ∀ id g, jmGet d id = some g → g.id = id ∧ g.timestamp = truthyOr ts id now

/-- The `start` fields of the set-activity events addressed to `id`. -/
def setStartsFor (evs : List ActivityEvent) (id : JSStr) : List (Option Nat) :=
  evs.filterMap (fun e =>
    match e with
    | ActivityEvent.set sid _ start _ => if sid = id then some start else none
    | ActivityEvent.clear _ _ => none)

/-- The pids of the clear-activity events addressed to `id`. -/
def clearsFor (evs : List ActivityEvent) (id : JSStr) : List (Option Nat) :=
  evs.filterMap (fun e =>
    match e with
    | ActivityEvent.clear sid p => if sid = id then some p else none
    | ActivityEvent.set _ _ _ _ => none)

/-- Two detectable games sharing the executable name `game.exe`; used to
exercise the multi-match behaviour of the scanner. -/
def dbTwoGames : List DetectableGame :=
  [⟨(("1001").data), (("Game A").data), some [⟨(("game.exe").data), none, none⟩]⟩,
   ⟨(("1002").data), (("Game B").data), some [⟨(("game.exe").data), none, none⟩]⟩]

/-- Detection map built from `dbTwoGames`. -/
def dmapTwoGames : List (JSStr × List DetectableGame) := buildDetectionMap dbTwoGames

/-- A process list with one running copy of `game.exe`. -/
def psOneGame : List ProcessEntry :=
  [⟨42, (("c:/games/game.exe").data), [], (("c:/games").data)⟩]

/-- The engine's initial (empty) state. -/
def st0Empty : EngineState := ⟨[], [], [], []⟩

/-- An engine state holding one previously detected game that no longer has a
running process. -/
def stLost : EngineState :=
  ⟨[((("999").data), 50)], [((("999").data), (("Old").data))], [((("999").data), 7)], []⟩

/-! ### Library lemmas about the embedding primitives -/

theorem leadsList_length {pat s : JSStr} (h : leadsList pat s = true) :
    pat.length ≤ s.length := by
  induction pat generalizing s with
  | nil => simp
  | cons p ps ih =>
    cases s with
    | nil => simp [leadsList] at h
    | cons c cs =>
      simp only [leadsList] at h
      split at h
      · simpa using Nat.succ_le_succ (ih h)
      · exact absurd h (by simp)

@[simp] theorem jmGet_nil {α : Type} (k : JSStr) : jmGet ([] : List (JSStr × α)) k = none := rfl

theorem jmGet_set_self {α : Type} (m : List (JSStr × α)) (k : JSStr) (v : α) :
    jmGet (jmSet m k v) k = some v := by
  induction m with
  | nil => simp [jmSet, jmGet]
  | cons e rest ih =>
    obtain ⟨k', v'⟩ := e
    by_cases h : k' = k
    · simp [jmSet, jmGet, h]
    · simp [jmSet, jmGet, h, ih]

theorem jmGet_set_ne {α : Type} (m : List (JSStr × α)) (k k' : JSStr) (v : α)
    (h : k' ≠ k) : jmGet (jmSet m k v) k' = jmGet m k' := by
  induction m with
  | nil => simp [jmSet, jmGet, Ne.symm h]
  | cons e rest ih =>
    obtain ⟨k0, v0⟩ := e
    by_cases h0 : k0 = k
    · subst h0
      simp [jmSet, jmGet, Ne.symm h]
    · by_cases h1 : k0 = k'
      · simp [jmSet, jmGet, h0, h1, h]
      · simp [jmSet, jmGet, h0, h1, ih]

theorem jmGet_del_self {α : Type} (m : List (JSStr × α)) (k : JSStr) :
    jmGet (jmDel m k) k = none := by
  induction m with
  | nil => simp [jmDel, jmGet]
  | cons e rest ih =>
    obtain ⟨k0, v0⟩ := e
    by_cases h : k0 = k
    · simpa [jmDel, h] using ih
    · simpa [jmDel, jmGet, h] using ih

theorem jmGet_del_ne {α : Type} (m : List (JSStr × α)) (k k' : JSStr)
    (h : k' ≠ k) : jmGet (jmDel m k) k' = jmGet m k' := by
  induction m with
  | nil => simp [jmDel]
  | cons e rest ih =>
    obtain ⟨k0, v0⟩ := e
    by_cases h0 : k0 = k
    · subst h0
      simp [jmDel, jmGet, Ne.symm h, ih]
    · by_cases h1 : k0 = k'
      · simp [jmDel, jmGet, h0, h1, h]
      · simp [jmDel, jmGet, h0, h1, ih]

theorem jmGet_set_isSome {α : Type} (m : List (JSStr × α)) (k k' : JSStr) (v : α)
    (h : (jmGet m k').isSome) : (jmGet (jmSet m k v) k').isSome := by
  by_cases hk : k' = k
  · subst hk; simp [jmGet_set_self]
  · rwa [jmGet_set_ne _ _ _ _ hk]

theorem mem_jmKeys_set {α : Type} (m : List (JSStr × α)) (k : JSStr) (v : α) (k' : JSStr) :
    k' ∈ jmKeys (jmSet m k v) ↔ k' = k ∨ k' ∈ jmKeys m := by
  induction m with
  | nil => simp [jmSet, jmKeys]
  | cons e rest ih =>
    obtain ⟨k0, v0⟩ := e
    by_cases h : k0 = k
    · subst h
      simp only [jmSet, if_pos rfl, jmKeys, List.mem_cons]
      tauto
    · simp only [jmSet, if_neg h, jmKeys, List.mem_cons]
      rw [ih]
      tauto

theorem jmKeys_nodup_set {α : Type} (m : List (JSStr × α)) (k : JSStr) (v : α)
    (h : (jmKeys m).Nodup) : (jmKeys (jmSet m k v)).Nodup := by
  induction m with
  | nil => simp [jmSet, jmKeys]
  | cons e rest ih =>
    obtain ⟨k0, v0⟩ := e
    simp only [jmKeys, List.nodup_cons] at h
    by_cases h0 : k0 = k
    · subst h0
      simp only [jmSet, if_pos rfl, jmKeys, List.nodup_cons]
      exact h
    · simp only [jmSet, if_neg h0, jmKeys, List.nodup_cons]
      refine ⟨fun hmem => ?_, ih h.2⟩
      rcases (mem_jmKeys_set rest k v k0).mp hmem with rfl | hmem2
      · exact h0 rfl
      · exact h.1 hmem2

theorem jmGet_isSome_iff_mem_keys {α : Type} (m : List (JSStr × α)) (k : JSStr) :
    (jmGet m k).isSome ↔ k ∈ jmKeys m := by
  induction m with
  | nil => simp [jmKeys]
  | cons e rest ih =>
    obtain ⟨k0, v0⟩ := e
    by_cases h : k0 = k
    · simp [jmGet, jmKeys, h]
    · simp only [jmGet, if_neg h, jmKeys, List.mem_cons]
      rw [ih]
      constructor
      · exact fun hm => Or.inr hm
      · rintro (rfl | hm)
        · exact absurd rfl h
        · exact hm

theorem mem_jmKeys_of_mem {α : Type} {m : List (JSStr × α)} {k : JSStr} {v : α}
    (h : (k, v) ∈ m) : k ∈ jmKeys m := by
  induction m with
  | nil => simp at h
  | cons e rest ih =>
    obtain ⟨k0, v0⟩ := e
    rcases List.mem_cons.mp h with h1 | h1
    · obtain ⟨hk, _⟩ := Prod.mk.injEq .. ▸ h1
      simp [jmKeys, hk]
    · exact List.mem_cons.mpr (Or.inr (ih h1))

theorem jmGet_eq_some_of_mem {α : Type} (m : List (JSStr × α)) (k : JSStr) (v : α)
    (hn : (jmKeys m).Nodup) (h : (k, v) ∈ m) : jmGet m k = some v := by
  induction m with
  | nil => simp at h
  | cons e rest ih =>
    obtain ⟨k0, v0⟩ := e
    simp only [jmKeys, List.nodup_cons] at hn
    rcases List.mem_cons.mp h with h1 | h1
    · obtain ⟨hk, hv⟩ := Prod.mk.injEq .. ▸ h1
      simp [jmGet, hk.symm, hv]
    · have hk0 : k0 ≠ k := by
        intro hk
        subst hk
        exact hn.1 (mem_jmKeys_of_mem h1)
      simp [jmGet, hk0, ih hn.2 h1]

theorem mem_of_jmGet_eq_some {α : Type} (m : List (JSStr × α)) (k : JSStr) (v : α)
    (h : jmGet m k = some v) : (k, v) ∈ m := by
  induction m with
  | nil => simp [jmGet] at h
  | cons e rest ih =>
    obtain ⟨k0, v0⟩ := e
    by_cases hk : k0 = k
    · subst hk
      simp only [jmGet] at h
      split at h
      · injection h with hv
        subst hv
        exact List.mem_cons_self _ _
      · next hfalse => exact absurd trivial hfalse
    · simp only [jmGet, if_neg hk] at h
      exact List.mem_cons_of_mem _ (ih h)

theorem mem_foldl_setAdd (l : List JSStr) (acc : List JSStr) (x : JSStr) :
    x ∈ l.foldl setAdd acc ↔ x ∈ acc ∨ x ∈ l := by
  induction l generalizing acc with
  | nil => simp
  | cons a rest ih =>
    simp only [List.foldl_cons, ih, List.mem_cons]
    unfold setAdd
    by_cases ha : a ∈ acc
    · simp only [if_pos ha]
      constructor
      · rintro (hx | hx)
        · exact Or.inl hx
        · exact Or.inr (Or.inr hx)
      · rintro (hx | rfl | hx)
        · exact Or.inl hx
        · exact Or.inl ha
        · exact Or.inr hx
    · simp only [if_neg ha, List.mem_append, List.mem_singleton]
      tauto

theorem mem_setList (l : List JSStr) (x : JSStr) : x ∈ setList l ↔ x ∈ l := by
  simp [setList, mem_foldl_setAdd]

theorem jsReplaceFirst_of_not_includes (s pat rep : JSStr)
    (h : jsIncludes s pat = false) : jsReplaceFirst s pat rep = s := by
  induction s with
  | nil =>
    unfold jsIncludes at h
    unfold jsReplaceFirst
    split
    · next hl => rw [hl] at h; simp at h
    · rfl
  | cons c cs ih =>
    unfold jsIncludes at h
    unfold jsReplaceFirst
    split
    · next hl => rw [hl] at h; simp at h
    · next hl =>
      rw [if_neg (by simp [hl])] at h
      exact congrArg (fun t => c :: t) (ih h)

/-! ### Claim theorems -/

/-- C1: the cache-maintenance step is triggered (3 cached signatures exceed
twice the 0 signatures seen by a scan over an empty process list), yet the
Scan Cache afterwards still holds all three unseen signatures instead of
being swept down to the signatures seen in this scan: the `for...in` loops
in `ProcessServer.scan` iterate array indices, so the deletions target the
keys `"0"`, `"1"`, `"2"` and remove nothing. -/
theorem cacheSweep_keeps_unseen_signatures :
    (scan [] ⟨[], [], [], staleCache⟩ [] 50).state.cache = staleCache
    ∧ staleCache.length = 3
    ∧ (scan [] ⟨[], [], [], staleCache⟩ [] 50).state.cache ≠ [] := by
  decide

/-- C2: for a strict executable entry (`s = 1`), the per-executable match
test inside `checkGameMatch` succeeds only when the stored name equals the
raw filename exactly; for any differing filename it returns false, with no
loose fallback checks. -/
theorem strict_exec_exact_only (exec : DetectableExecutable)
    (candidateKey filename fullPath cwdPath : JSStr) (args : List JSStr)
    (hs : exec.s = some 1) :
    (execMatch exec candidateKey filename fullPath cwdPath args = true → exec.n = filename)
    ∧ (exec.n ≠ filename →
        execMatch exec candidateKey filename fullPath cwdPath args = false) := by
  simp only [execMatch, hs]
  constructor
  · intro h
    split at h
    · exact absurd h (by simp)
    · simp at h
      exact h
  · intro hne
    split
    · rfl
    · simp [hne]

/-- Witness for C2, mirroring the spec scenario: the strict entry
`game.exe` does not match the filename `game64.exe`. -/
theorem strict_exec_exact_only_witness :
    (⟨("game.exe".data), none, some 1⟩ : DetectableExecutable).s = some 1
    ∧ ("game.exe".data : JSStr) ≠ ("game64.exe".data)
    ∧ execMatch ⟨("game.exe".data), none, some 1⟩ ("game64.exe".data) ("game64.exe".data)
        ("c:/g/game64.exe".data) ("c:/g".data) [] = false :=
  ⟨rfl, by decide,
   (strict_exec_exact_only ⟨("game.exe".data), none, some 1⟩ ("game64.exe".data)
      ("game64.exe".data) ("c:/g/game64.exe".data) ("c:/g".data) [] rfl).2 (by decide)⟩

/-- C4: handshake state machine of the native transport.  A handshake whose
parsed version differs from 1 closes with 4004 and emits no `connection`
event; version 1 with an empty `client_id` closes with 4000 and emits no
`connection` event; version 1 with a non-empty `client_id` records the
client id and emits exactly one `connection` event. -/
theorem ipc_handshake_state_machine (v client_id : Option JSStr) :
    (jsParseInt (v.getD ("1".data)) ≠ some 1 →
      ipcOnHandshake v client_id = HandshakeOutcome.closed 4004
      ∧ connectionEmits (ipcOnHandshake v client_id) = [])
    ∧ (jsParseInt (v.getD ("1".data)) = some 1 → client_id.getD [] = [] →
      ipcOnHandshake v client_id = HandshakeOutcome.closed 4000
      ∧ connectionEmits (ipcOnHandshake v client_id) = [])
    ∧ (jsParseInt (v.getD ("1".data)) = some 1 → client_id.getD [] ≠ [] →
      ipcOnHandshake v client_id = HandshakeOutcome.connected (client_id.getD [])
      ∧ connectionEmits (ipcOnHandshake v client_id) = [client_id.getD []]) := by
  refine ⟨fun h => ?_, fun h1 h2 => ?_, fun h1 h2 => ?_⟩
  · simp [ipcOnHandshake, connectionEmits, h]
  · simp [ipcOnHandshake, connectionEmits, h1, h2]
  · simp [ipcOnHandshake, connectionEmits, h1, h2]

/-- Witness for C4: `v:"2"` is closed with 4004 and no `connection` event;
`v:"1"` with empty client id is closed with 4000; `v:"1"` with client id
`"x"` connects and emits exactly one `connection` event. -/
theorem ipc_handshake_state_machine_witness :
    (jsParseInt ((some ("2".data)).getD ("1".data)) ≠ some 1
      ∧ ipcOnHandshake (some ("2".data)) (some ("x".data)) = HandshakeOutcome.closed 4004
      ∧ connectionEmits (ipcOnHandshake (some ("2".data)) (some ("x".data))) = [])
    ∧ ipcOnHandshake (some ("1".data)) (some []) = HandshakeOutcome.closed 4000
    ∧ (ipcOnHandshake (some ("1".data)) (some ("x".data)) =
        HandshakeOutcome.connected ("x".data)
      ∧ connectionEmits (ipcOnHandshake (some ("1".data)) (some ("x".data))) = [("x".data)]) :=
  ⟨⟨by decide, (ipc_handshake_state_machine (some ("2".data)) (some ("x".data))).1 (by decide)⟩,
   ((ipc_handshake_state_machine (some ("1".data)) (some [])).2.1 (by decide) (by decide)).1,
   (ipc_handshake_state_machine (some ("1".data)) (some ("x".data))).2.2 (by decide) (by decide)⟩

/-- C7 counterexample: for the filename `game.exe.bak`, whose `.exe` occurs
only in a non-trailing position, the extension-less candidate is *not* the
filename unchanged (as the claim requires): `replace(".exe", "")` removes
the first occurrence anywhere, yielding `game.bak`, which indeed shows up in
the candidate set. -/
theorem scanCandidates_trailing_exe_counterexample :
    ("game.bak".data) ∈ scanCandidates ("game.exe.bak".data)
    ∧ trailsList (".exe".data) ("game.exe.bak".data) = false
    ∧ jsReplaceFirst ("game.exe.bak".data) (".exe".data) [] ≠ ("game.exe.bak".data) := by
  decide

/-- C7 (amended): the candidate set is exactly the filename, the filename
with the *first* occurrence of `.exe` removed (anywhere, not only trailing),
the bitness-stripped filename, and the bitness-stripped combination; a
filename in which `.exe` does not occur at all yields itself unchanged as
the extension-less candidate. -/
theorem scanCandidates_first_exe_occurrence (filename : JSStr) :
    (∀ x, x ∈ scanCandidates filename ↔
      (x = filename ∨ x = jsReplaceFirst filename (".exe".data) [] ∨
       x = stripBitness filename ∨ x = stripBitness (jsReplaceFirst filename (".exe".data) [])))
    ∧ (jsIncludes filename (".exe".data) = false →
        jsReplaceFirst filename (".exe".data) [] = filename) := by
  constructor
  · intro x
    rw [scanCandidates, mem_setList]
    simp
  · exact fun h => jsReplaceFirst_of_not_includes _ _ _ h

/-- Witness for the amended C7 at the filename `game`. -/
theorem scanCandidates_first_exe_occurrence_witness :
    jsIncludes ("game".data) (".exe".data) = false
    ∧ (("game".data) ∈ scanCandidates ("game".data) ↔
      (("game".data : JSStr) = ("game".data) ∨
       ("game".data : JSStr) = jsReplaceFirst ("game".data) (".exe".data) [] ∨
       ("game".data : JSStr) = stripBitness ("game".data) ∨
       ("game".data : JSStr) = stripBitness (jsReplaceFirst ("game".data) (".exe".data) [])))
    ∧ jsReplaceFirst ("game".data) (".exe".data) [] = ("game".data) :=
  ⟨by decide, (scanCandidates_first_exe_occurrence ("game".data)).1 ("game".data),
   (scanCandidates_first_exe_occurrence ("game".data)).2 (by decide)⟩

/-- C9: the native transport's `onMessage` drops any decoded payload without
a truthy `cmd` field or without a truthy `args` field (the shared handler is
not invoked); the handler receives only payloads carrying both; the
WebSocket transport applies no such gate and forwards every payload. -/
theorem ipc_message_requires_cmd_args (msg : List (JSStr × JVal)) :
    ((jsTruthy (jmGet msg ("cmd".data)) = false ∨ jsTruthy (jmGet msg ("args".data)) = false) →
      ipcOnMessage msg = none)
    ∧ (∀ m, ipcOnMessage msg = some m →
        m = msg ∧ jsTruthy (jmGet msg ("cmd".data)) = true
          ∧ jsTruthy (jmGet msg ("args".data)) = true)
    ∧ wsOnMessage msg = some msg := by
  refine ⟨fun h => ?_, fun m hm => ?_, rfl⟩
  · rcases h with h | h <;> simp [ipcOnMessage, h]
  · unfold ipcOnMessage at hm
    split at hm
    · exact absurd hm (by simp)
    · next hcond =>
      simp only [Option.some.injEq] at hm
      subst hm
      simp only [Bool.or_eq_true, Bool.not_eq_true', not_or, Bool.not_eq_false] at hcond
      exact ⟨rfl, hcond.2, hcond.1⟩

/-- Witness for C9: a payload with `cmd` but no `args` is dropped by the
native transport and forwarded by the WebSocket transport. -/
theorem ipc_message_requires_cmd_args_witness :
    ipcOnMessage [(("cmd".data), JVal.jstr ("SET_ACTIVITY".data))] = none
    ∧ wsOnMessage [(("cmd".data), JVal.jstr ("SET_ACTIVITY".data))] =
        some [(("cmd".data), JVal.jstr ("SET_ACTIVITY".data))] :=
  ⟨(ipc_message_requires_cmd_args _).1 (Or.inr (by rfl)),
   (ipc_message_requires_cmd_args _).2.2⟩

/-- C10: on both transports a missing version parameter is defaulted to "1"
and accepted, and any version string `parseInt` reads as 1 (such as "1.5")
is accepted as version 1. -/
theorem transport_version_defaults :
    (∀ cidOpt : Option JSStr,
      wsOnConnection none (some ("json".data)) cidOpt = WSOutcome.accepted (cidOpt.getD []))
    ∧ (∀ cid : JSStr, cid ≠ [] →
        ipcOnHandshake none (some cid) = HandshakeOutcome.connected cid)
    ∧ (∀ s : JSStr, jsParseInt s = some 1 →
        (∀ cidOpt : Option JSStr,
          wsOnConnection (some s) (some ("json".data)) cidOpt = WSOutcome.accepted (cidOpt.getD []))
        ∧ (∀ cid : JSStr, cid ≠ [] →
            ipcOnHandshake (some s) (some cid) = HandshakeOutcome.connected cid))
    ∧ jsParseInt ("1.5".data) = some 1 := by
  have h1 : jsParseInt ("1".data) = some 1 := by decide
  refine ⟨fun cidOpt => ?_, fun cid hc => ?_,
    fun s hs => ⟨fun cidOpt => ?_, fun cid hc => ?_⟩, by decide⟩
  · simp [wsOnConnection, h1]
  · simp [ipcOnHandshake, h1, hc]
  · simp [wsOnConnection, hs]
  · simp [ipcOnHandshake, hs, hc]

/-- Witness for C10 at concrete inputs (including version string "1.5"). -/
theorem transport_version_defaults_witness :
    wsOnConnection none (some ("json".data)) (some ("abc".data)) = WSOutcome.accepted ("abc".data)
    ∧ (("x".data : JSStr) ≠ []
        ∧ ipcOnHandshake none (some ("x".data)) = HandshakeOutcome.connected ("x".data))
    ∧ (jsParseInt ("1.5".data) = some 1
        ∧ wsOnConnection (some ("1.5".data)) (some ("json".data)) (some ("abc".data)) =
            WSOutcome.accepted ("abc".data)
        ∧ ipcOnHandshake (some ("1.5".data)) (some ("x".data)) =
            HandshakeOutcome.connected ("x".data)) :=
  ⟨transport_version_defaults.1 (some ("abc".data)),
   ⟨by decide, transport_version_defaults.2.1 ("x".data) (by decide)⟩,
   ⟨by decide,
    (transport_version_defaults.2.2.1 ("1.5".data) (by decide)).1 (some ("abc".data)),
    (transport_version_defaults.2.2.1 ("1.5".data) (by decide)).2 ("x".data) (by decide)⟩⟩

/-! ### Frame-reader lemmas (native transport) -/

theorem encodeFrame_eq (ty : Nat) (pl : List Nat) :
    encodeFrame ty pl = ty % 256 :: ty / 256 % 256 :: ty / 65536 % 256 :: ty / 16777216 % 256 ::
      pl.length % 256 :: pl.length / 256 % 256 :: pl.length / 65536 % 256 ::
      pl.length / 16777216 % 256 :: pl := by
  simp [encodeFrame, writeInt32LE]

theorem readInt32LE_bytes (n : Nat) (h : n < 2147483648) :
    readInt32LE (n % 256) (n / 256 % 256) (n / 65536 % 256) (n / 16777216 % 256) = (n : Int) := by
  unfold readInt32LE
  have hu : n % 256 + 256 * (n / 256 % 256) + 65536 * (n / 65536 % 256) +
      16777216 * (n / 16777216 % 256) = n := by omega
  rw [hu]
  rw [if_pos (by exact_mod_cast h)]

theorem processReadable_nil {α : Type} (parse : List Nat → Option α) :
    processSocketReadable parse [] = ⟨[], [], [], SockStatus.alive⟩ := by
  rw [processSocketReadable]
  intro b0 b1 b2 b3 b4 b5 b6 b7 rest h
  exact List.noConfusion h

theorem processReadable_whole {α : Type} (parse : List Nat → Option α) (ty : Nat)
    (pl : List Nat) (d : α) (hty : (ty : Int) ∈ ipcTypes)
    (hcap : pl.length ≤ MAX_IPC_PAYLOAD) (hp : parse pl = some d) :
    processSocketReadable parse (encodeFrame ty pl) =
      ⟨eventsOf ty d, pongsOf ty d, [], statusOf ty⟩ := by
  have hty5 : ty = 0 ∨ ty = 1 ∨ ty = 2 ∨ ty = 3 ∨ ty = 4 := by
    simp [ipcTypes] at hty
    omega
  have hM : MAX_IPC_PAYLOAD = 5242880 := by decide
  rw [hM] at hcap
  have hlen : pl.length < 2147483648 := by omega
  have hty31 : ty < 2147483648 := by omega
  rw [encodeFrame_eq]
  rw [processSocketReadable]
  rw [readInt32LE_bytes ty hty31, readInt32LE_bytes pl.length hlen]
  rw [if_neg (by rw [hM]; push_cast; omega)]
  rw [if_neg (by simp [Int.toNat_natCast])]
  rw [if_neg (not_not_intro hty)]
  simp only [Int.toNat_natCast, List.take_length, List.drop_length]
  rcases hty5 with rfl | rfl | rfl | rfl | rfl <;>
    simp [hp, processReadable_nil, eventsOf, pongsOf, statusOf]

theorem processReadable_needs_header {α : Type} (parse : List Nat → Option α)
    (buf : List Nat) (h : buf.length < 8) :
    processSocketReadable parse buf = ⟨[], [], buf, SockStatus.alive⟩ := by
  rw [processSocketReadable]
  intro b0 b1 b2 b3 b4 b5 b6 b7 rest h2
  subst h2
  simp at h
  omega

theorem take_cons8 {β : Type} (a0 a1 a2 a3 a4 a5 a6 a7 : β) (l : List β) (j : Nat) :
    (a0 :: a1 :: a2 :: a3 :: a4 :: a5 :: a6 :: a7 :: l).take (8 + j) =
      a0 :: a1 :: a2 :: a3 :: a4 :: a5 :: a6 :: a7 :: l.take j := by
  have h8 : 8 + j = j + 8 := by omega
  rw [h8]
  rfl

theorem encodeFrame_length (ty : Nat) (pl : List Nat) :
    (encodeFrame ty pl).length = 8 + pl.length := by
  simp [encodeFrame, writeInt32LE]
  omega

theorem processReadable_prefix {α : Type} (parse : List Nat → Option α) (ty : Nat)
    (pl : List Nat) (hcap : pl.length ≤ MAX_IPC_PAYLOAD) (hty31 : ty < 2147483648)
    (i : Nat) (hi : i < (encodeFrame ty pl).length) :
    processSocketReadable parse ((encodeFrame ty pl).take i) =
      ⟨[], [], (encodeFrame ty pl).take i, SockStatus.alive⟩ := by
  have hM : MAX_IPC_PAYLOAD = 5242880 := by decide
  rw [hM] at hcap
  have hlenF := encodeFrame_length ty pl
  by_cases h8 : i < 8
  · apply processReadable_needs_header
    simp [List.length_take]
    omega
  · obtain ⟨j, rfl⟩ : ∃ j, i = 8 + j := ⟨i - 8, by omega⟩
    have hj : j < pl.length := by omega
    rw [encodeFrame_eq, take_cons8]
    rw [processSocketReadable]
    rw [readInt32LE_bytes ty hty31, readInt32LE_bytes pl.length (by omega)]
    rw [if_neg (by rw [hM]; push_cast; omega)]
    rw [if_pos (by simp [Int.toNat_natCast, List.length_take]; omega)]

theorem feedAll_single {α : Type} (parse : List Nat → Option α) (ty : Nat)
    (pl : List Nat) (d : α) (hty : (ty : Int) ∈ ipcTypes)
    (hcap : pl.length ≤ MAX_IPC_PAYLOAD) (hp : parse pl = some d) :
    feedAll parse [encodeFrame ty pl] = ⟨eventsOf ty d, pongsOf ty d, [], statusOf ty⟩ := by
  simp [feedAll, feedChunk, newConn, processReadable_whole parse ty pl d hty hcap hp]

theorem serverDeliver_length {α : Type} (parse : List Nat → Option α)
    (conns : List (ReaderResult α)) (i : Nat) (chunk : List Nat) :
    (serverDeliver parse conns i chunk).length = conns.length := by
  induction conns generalizing i with
  | nil => rfl
  | cons c cs ih =>
    cases i with
    | zero => rfl
    | succ n => simp [serverDeliver, ih]

theorem serverDeliver_other {α : Type} (parse : List Nat → Option α)
    (conns : List (ReaderResult α)) (i : Nat) (chunk : List Nat) (j : Nat) (hj : j ≠ i) :
    (serverDeliver parse conns i chunk)[j]? = conns[j]? := by
  induction conns generalizing i j with
  | nil => rfl
  | cons c cs ih =>
    cases i with
    | zero =>
      cases j with
      | zero => exact absurd rfl hj
      | succ m => simp [serverDeliver]
    | succ n =>
      cases j with
      | zero => simp [serverDeliver]
      | succ m =>
        have hm : m ≠ n := fun h => hj (by omega)
        simp [serverDeliver, ih n m hm]

/-- C5: a valid native-protocol frame (known type, payload under the 5 MiB
cap, well-formed payload) delivered split at any byte boundary produces
exactly the same reader outcome as delivered whole; the whole delivery emits
exactly one event of the frame's type and payload; and any strict prefix
leaves the reader waiting with every consumed byte put back (no data loss,
no re-parsing). -/
theorem frame_split_delivery {α : Type} (parse : List Nat → Option α) (ty : Nat)
    (pl : List Nat) (d : α) (hty : (ty : Int) ∈ ipcTypes)
    (hcap : pl.length ≤ MAX_IPC_PAYLOAD) (hp : parse pl = some d)
    (i : Nat) (hi : i ≤ (encodeFrame ty pl).length) :
    feedAll parse [(encodeFrame ty pl).take i, (encodeFrame ty pl).drop i]
      = feedAll parse [encodeFrame ty pl]
    ∧ (feedAll parse [encodeFrame ty pl]).events = eventsOf ty d
    ∧ (eventsOf ty d).length = 1
    ∧ (i < (encodeFrame ty pl).length →
        processSocketReadable parse ((encodeFrame ty pl).take i) =
          ⟨[], [], (encodeFrame ty pl).take i, SockStatus.alive⟩) := by
  have hty31 : ty < 2147483648 := by
    simp [ipcTypes] at hty
    omega
  have hwhole := processReadable_whole parse ty pl d hty hcap hp
  have hsingle := feedAll_single parse ty pl d hty hcap hp
  have hone : (eventsOf ty d).length = 1 := by
    unfold eventsOf
    split
    · rfl
    · split
      · rfl
      · split
        · rfl
        · split
          · rfl
          · rfl
  refine ⟨?_, by rw [hsingle], hone,
    fun hlt => processReadable_prefix parse ty pl hcap hty31 i hlt⟩
  by_cases hlt : i < (encodeFrame ty pl).length
  · have hpre := processReadable_prefix parse ty pl hcap hty31 i hlt
    simp [feedAll, feedChunk, newConn, hpre, List.take_append_drop, hwhole]
  · have hieq : i = (encodeFrame ty pl).length := by omega
    subst hieq
    have h2 : feedChunk parse ⟨eventsOf ty d, pongsOf ty d, [], statusOf ty⟩ [] =
        ⟨eventsOf ty d, pongsOf ty d, [], statusOf ty⟩ := by
      unfold feedChunk
      cases statusOf ty
      · simp [processReadable_nil]
      · rfl
    simp only [List.take_length, List.drop_length, feedAll, List.foldl_cons,
      List.foldl_nil]
    rw [show feedChunk parse (newConn α) (encodeFrame ty pl) =
        ⟨eventsOf ty d, pongsOf ty d, [], statusOf ty⟩ from by
      simp [feedChunk, newConn, hwhole]]
    exact h2

/-- Witness for C5: the FRAME frame with payload byte 42 split after its
fifth byte behaves exactly as when delivered whole, emitting one `request`
event. -/
theorem frame_split_delivery_witness :
    (1 : Int) ∈ ipcTypes
    ∧ feedAll (fun b : List Nat => if b = [42] then some 7 else none)
        [(encodeFrame 1 [42]).take 5, (encodeFrame 1 [42]).drop 5]
      = feedAll (fun b : List Nat => if b = [42] then some 7 else none) [encodeFrame 1 [42]]
    ∧ (feedAll (fun b : List Nat => if b = [42] then some 7 else none)
        [encodeFrame 1 [42]]).events = eventsOf 1 7 :=
  ⟨by decide,
   (frame_split_delivery (fun b : List Nat => if b = [42] then some 7 else none)
      1 [42] 7 (by decide) (by decide) (by decide) 5 (by decide)).1,
   (frame_split_delivery (fun b : List Nat => if b = [42] then some 7 else none)
      1 [42] 7 (by decide) (by decide) (by decide) 5 (by decide)).2.1⟩

/-- C8: a frame whose declared payload length is negative or exceeds the
5 MiB cap destroys the connection as soon as the header is read; a fully
buffered frame with an unknown type value destroys the connection; and a
chunk delivered to connection `i` leaves every other connection untouched
and the server's connection list intact. -/
theorem ipc_protocol_violations_destroy_connection {α : Type}
    (parse : List Nat → Option α) :
    (∀ b0 b1 b2 b3 b4 b5 b6 b7 : Nat, ∀ rest : List Nat,
      (readInt32LE b4 b5 b6 b7 < 0 ∨ (MAX_IPC_PAYLOAD : Int) < readInt32LE b4 b5 b6 b7) →
      processSocketReadable parse (b0 :: b1 :: b2 :: b3 :: b4 :: b5 :: b6 :: b7 :: rest) =
        ⟨[], [], rest, SockStatus.destroyed⟩)
    ∧ (∀ ty : Nat, ∀ pl : List Nat, ty < 2147483648 → (ty : Int) ∉ ipcTypes →
        pl.length ≤ MAX_IPC_PAYLOAD →
        processSocketReadable parse (encodeFrame ty pl) = ⟨[], [], [], SockStatus.destroyed⟩)
    ∧ (∀ conns : List (ReaderResult α), ∀ i : Nat, ∀ chunk : List Nat, ∀ j : Nat, j ≠ i →
        (serverDeliver parse conns i chunk)[j]? = conns[j]?)
    ∧ (∀ conns : List (ReaderResult α), ∀ i : Nat, ∀ chunk : List Nat,
        (serverDeliver parse conns i chunk).length = conns.length) := by
  refine ⟨fun b0 b1 b2 b3 b4 b5 b6 b7 rest h => ?_, fun ty pl hty31 htyn hcap => ?_,
    fun conns i chunk j hj => serverDeliver_other parse conns i chunk j hj,
    fun conns i chunk => serverDeliver_length parse conns i chunk⟩
  · rw [processSocketReadable]
    rw [if_pos h]
  · have hM : MAX_IPC_PAYLOAD = 5242880 := by decide
    rw [hM] at hcap
    have hlen : pl.length < 2147483648 := by omega
    rw [encodeFrame_eq]
    rw [processSocketReadable]
    rw [readInt32LE_bytes ty hty31, readInt32LE_bytes pl.length hlen]
    rw [if_neg (by rw [hM]; push_cast; omega)]
    rw [if_neg (by simp [Int.toNat_natCast])]
    rw [if_pos htyn]
    simp [Int.toNat_natCast, List.drop_length]

/-- Witness for C8: a header declaring a negative payload size destroys the
connection; an unknown type 7 destroys the connection; a delivery to
connection 0 leaves connection 1 untouched. -/
theorem ipc_protocol_violations_witness :
    (readInt32LE 0 0 0 255 < 0 ∨ (MAX_IPC_PAYLOAD : Int) < readInt32LE 0 0 0 255)
    ∧ processSocketReadable (fun b : List Nat => some b) [1, 0, 0, 0, 0, 0, 0, 255] =
        ⟨[], [], [], SockStatus.destroyed⟩
    ∧ ((7 : Nat) : Int) ∉ ipcTypes
    ∧ processSocketReadable (fun b : List Nat => some b) (encodeFrame 7 []) =
        ⟨[], [], [], SockStatus.destroyed⟩
    ∧ (1 : Nat) ≠ 0
    ∧ (serverDeliver (fun b : List Nat => some b)
        [newConn (List Nat), newConn (List Nat)] 0 [9])[1]?
        = [newConn (List Nat), newConn (List Nat)][1]? :=
  ⟨by decide,
   (ipc_protocol_violations_destroy_connection (fun b : List Nat => some b)).1
      1 0 0 0 0 0 0 255 [] (by decide),
   by decide,
   (ipc_protocol_violations_destroy_connection (fun b : List Nat => some b)).2.1
      7 [] (by decide) (by decide) (by decide),
   by decide,
   (ipc_protocol_violations_destroy_connection (fun b : List Nat => some b)).2.2.1
      [newConn (List Nat), newConn (List Nat)] 0 [9] 1 (by decide)⟩

theorem gamesFold_cache_other (ts : List (JSStr × Nat)) (now pid : Nat)
    (k cand fn rp cp : JSStr) (args : List JSStr) (gl : List DetectableGame)
    (dc : List (JSStr × DetectedGame) × List (JSStr × DetectedGame))
    (k2 : JSStr) (h : k2 ≠ k) :
    jmGet (gl.foldl (matchGame ts now pid k cand fn rp cp args) dc).2 k2 = jmGet dc.2 k2 := by
  induction gl generalizing dc with
  | nil => rfl
  | cons g gs ih =>
    rw [List.foldl_cons, ih]
    unfold matchGame
    split
    · exact jmGet_set_ne _ _ _ _ h
    · rfl

theorem detectedOk_set (ts : List (JSStr × Nat)) (now : Nat)
    (d : List (JSStr × DetectedGame)) (gid nm : JSStr) (pid : Nat)
    (h : detectedOk ts now d) :
    detectedOk ts now (jmSet d gid ⟨gid, nm, pid, truthyOr ts gid now⟩) := by
  intro id g hg
  by_cases hid : id = gid
  · subst hid
    rw [jmGet_set_self] at hg
    cases hg
    exact ⟨rfl, rfl⟩
  · rw [jmGet_set_ne _ _ _ _ hid] at hg
    exact h id g hg

theorem gamesFold_detectedOk (ts : List (JSStr × Nat)) (now pid : Nat)
    (k cand fn rp cp : JSStr) (args : List JSStr) (gl : List DetectableGame)
    (dc : List (JSStr × DetectedGame) × List (JSStr × DetectedGame))
    (h : detectedOk ts now dc.1) :
    detectedOk ts now (gl.foldl (matchGame ts now pid k cand fn rp cp args) dc).1 := by
  induction gl generalizing dc with
  | nil => exact h
  | cons g gs ih =>
    rw [List.foldl_cons]
    apply ih
    unfold matchGame
    split
    · exact detectedOk_set ts now dc.1 g.i g.n pid h
    · exact h

theorem gamesFold_detected_isSome (ts : List (JSStr × Nat)) (now pid : Nat)
    (k cand fn rp cp : JSStr) (args : List JSStr) (gl : List DetectableGame)
    (dc : List (JSStr × DetectedGame) × List (JSStr × DetectedGame))
    (id : JSStr) (h : (jmGet dc.1 id).isSome) :
    (jmGet (gl.foldl (matchGame ts now pid k cand fn rp cp args) dc).1 id).isSome := by
  induction gl generalizing dc with
  | nil => exact h
  | cons g gs ih =>
    rw [List.foldl_cons]
    apply ih
    unfold matchGame
    split
    · exact jmGet_set_isSome _ _ _ _ h
    · exact h

theorem gamesFold_cache_link (ts : List (JSStr × Nat)) (now pid : Nat)
    (k cand fn rp cp : JSStr) (args : List JSStr) (gl : List DetectableGame)
    (dc : List (JSStr × DetectedGame) × List (JSStr × DetectedGame))
    (h : ∀ c, jmGet dc.2 k = some c → (jmGet dc.1 c.id).isSome) :
    ∀ c, jmGet (gl.foldl (matchGame ts now pid k cand fn rp cp args) dc).2 k = some c →
      (jmGet (gl.foldl (matchGame ts now pid k cand fn rp cp args) dc).1 c.id).isSome := by
  induction gl generalizing dc with
  | nil => exact h
  | cons g gs ih =>
    rw [List.foldl_cons]
    apply ih
    intro c hc
    by_cases hm : checkGameMatch g cand fn rp cp args = true
    · simp only [matchGame, if_pos hm] at hc ⊢
      rw [jmGet_set_self] at hc
      cases hc
      simp [jmGet_set_self]
    · simp only [matchGame, if_neg hm] at hc ⊢
      exact h c hc

theorem gamesFold_id_no_match (ts : List (JSStr × Nat)) (now pid : Nat)
    (k cand fn rp cp : JSStr) (args : List JSStr) (gl : List DetectableGame)
    (dc : List (JSStr × DetectedGame) × List (JSStr × DetectedGame))
    (h : ∀ g ∈ gl, checkGameMatch g cand fn rp cp args = false) :
    gl.foldl (matchGame ts now pid k cand fn rp cp args) dc = dc := by
  induction gl generalizing dc with
  | nil => rfl
  | cons g gs ih =>
    rw [List.foldl_cons]
    rw [show matchGame ts now pid k cand fn rp cp args dc g = dc from by
      unfold matchGame
      rw [if_neg (by rw [h g (List.mem_cons_self _ _)]; simp)]]
    exact ih dc (fun g2 hg2 => h g2 (List.mem_cons_of_mem _ hg2))

theorem gamesFold_cacheKey_isSome_mono (ts : List (JSStr × Nat)) (now pid : Nat)
    (k cand fn rp cp : JSStr) (args : List JSStr) (gl : List DetectableGame)
    (dc : List (JSStr × DetectedGame) × List (JSStr × DetectedGame))
    (h : (jmGet dc.2 k).isSome) :
    (jmGet (gl.foldl (matchGame ts now pid k cand fn rp cp args) dc).2 k).isSome := by
  induction gl generalizing dc with
  | nil => exact h
  | cons g gs ih =>
    rw [List.foldl_cons]
    apply ih
    unfold matchGame
    split
    · rw [jmGet_set_self]; rfl
    · exact h

theorem gamesFold_some_match (ts : List (JSStr × Nat)) (now pid : Nat)
    (k cand fn rp cp : JSStr) (args : List JSStr) (gl : List DetectableGame)
    (dc : List (JSStr × DetectedGame) × List (JSStr × DetectedGame))
    (h : ∃ g ∈ gl, checkGameMatch g cand fn rp cp args = true) :
    (jmGet (gl.foldl (matchGame ts now pid k cand fn rp cp args) dc).2 k).isSome := by
  induction gl generalizing dc with
  | nil => simp at h
  | cons g gs ih =>
    rw [List.foldl_cons]
    obtain ⟨g2, hg2, hm⟩ := h
    rcases List.mem_cons.mp hg2 with rfl | hmem
    · apply gamesFold_cacheKey_isSome_mono
      unfold matchGame
      rw [if_pos hm, jmGet_set_self]
      rfl
    · exact ih _ ⟨g2, hmem, hm⟩

theorem gamesFold_detected_nodup (ts : List (JSStr × Nat)) (now pid : Nat)
    (k cand fn rp cp : JSStr) (args : List JSStr) (gl : List DetectableGame)
    (dc : List (JSStr × DetectedGame) × List (JSStr × DetectedGame))
    (h : (jmKeys dc.1).Nodup) :
    (jmKeys (gl.foldl (matchGame ts now pid k cand fn rp cp args) dc).1).Nodup := by
  induction gl generalizing dc with
  | nil => exact h
  | cons g gs ih =>
    rw [List.foldl_cons]
    apply ih
    unfold matchGame
    split
    · exact jmKeys_nodup_set _ _ _ h
    · exact h

theorem candsFold_cache_other (ts : List (JSStr × Nat)) (now : Nat)
    (dmap : List (JSStr × List DetectableGame)) (pid : Nat)
    (k fn rp cp : JSStr) (args : List JSStr) (cands : List JSStr)
    (dc : List (JSStr × DetectedGame) × List (JSStr × DetectedGame))
    (k2 : JSStr) (h : k2 ≠ k) :
    jmGet (cands.foldl (matchCandidate ts now dmap pid k fn rp cp args) dc).2 k2
      = jmGet dc.2 k2 := by
  induction cands generalizing dc with
  | nil => rfl
  | cons cand cs ih =>
    rw [List.foldl_cons, ih]
    unfold matchCandidate
    cases jmGet dmap cand with
    | none => rfl
    | some gl => exact gamesFold_cache_other ts now pid k cand fn rp cp args gl dc k2 h

theorem candsFold_detectedOk (ts : List (JSStr × Nat)) (now : Nat)
    (dmap : List (JSStr × List DetectableGame)) (pid : Nat)
    (k fn rp cp : JSStr) (args : List JSStr) (cands : List JSStr)
    (dc : List (JSStr × DetectedGame) × List (JSStr × DetectedGame))
    (h : detectedOk ts now dc.1) :
    detectedOk ts now (cands.foldl (matchCandidate ts now dmap pid k fn rp cp args) dc).1 := by
  induction cands generalizing dc with
  | nil => exact h
  | cons cand cs ih =>
    rw [List.foldl_cons]
    apply ih
    unfold matchCandidate
    cases jmGet dmap cand with
    | none => exact h
    | some gl => exact gamesFold_detectedOk ts now pid k cand fn rp cp args gl dc h

theorem candsFold_detected_isSome (ts : List (JSStr × Nat)) (now : Nat)
    (dmap : List (JSStr × List DetectableGame)) (pid : Nat)
    (k fn rp cp : JSStr) (args : List JSStr) (cands : List JSStr)
    (dc : List (JSStr × DetectedGame) × List (JSStr × DetectedGame))
    (id : JSStr) (h : (jmGet dc.1 id).isSome) :
    (jmGet (cands.foldl (matchCandidate ts now dmap pid k fn rp cp args) dc).1 id).isSome := by
  induction cands generalizing dc with
  | nil => exact h
  | cons cand cs ih =>
    rw [List.foldl_cons]
    apply ih
    unfold matchCandidate
    cases jmGet dmap cand with
    | none => exact h
    | some gl => exact gamesFold_detected_isSome ts now pid k cand fn rp cp args gl dc id h

theorem candsFold_cache_link (ts : List (JSStr × Nat)) (now : Nat)
    (dmap : List (JSStr × List DetectableGame)) (pid : Nat)
    (k fn rp cp : JSStr) (args : List JSStr) (cands : List JSStr)
    (dc : List (JSStr × DetectedGame) × List (JSStr × DetectedGame))
    (h : ∀ c, jmGet dc.2 k = some c → (jmGet dc.1 c.id).isSome) :
    ∀ c, jmGet (cands.foldl (matchCandidate ts now dmap pid k fn rp cp args) dc).2 k = some c →
      (jmGet (cands.foldl (matchCandidate ts now dmap pid k fn rp cp args) dc).1 c.id).isSome := by
  induction cands generalizing dc with
  | nil => exact h
  | cons cand cs ih =>
    rw [List.foldl_cons]
    apply ih
    unfold matchCandidate
    cases jmGet dmap cand with
    | none => exact h
    | some gl => exact gamesFold_cache_link ts now pid k cand fn rp cp args gl dc h

theorem candsFold_detected_nodup (ts : List (JSStr × Nat)) (now : Nat)
    (dmap : List (JSStr × List DetectableGame)) (pid : Nat)
    (k fn rp cp : JSStr) (args : List JSStr) (cands : List JSStr)
    (dc : List (JSStr × DetectedGame) × List (JSStr × DetectedGame))
    (h : (jmKeys dc.1).Nodup) :
    (jmKeys (cands.foldl (matchCandidate ts now dmap pid k fn rp cp args) dc).1).Nodup := by
  induction cands generalizing dc with
  | nil => exact h
  | cons cand cs ih =>
    rw [List.foldl_cons]
    apply ih
    unfold matchCandidate
    cases jmGet dmap cand with
    | none => exact h
    | some gl => exact gamesFold_detected_nodup ts now pid k cand fn rp cp args gl dc h

theorem candsFold_no_match (ts : List (JSStr × Nat)) (now : Nat)
    (dmap : List (JSStr × List DetectableGame)) (pid : Nat)
    (k fn rp cp : JSStr) (args : List JSStr) (cands : List JSStr)
    (dc : List (JSStr × DetectedGame) × List (JSStr × DetectedGame))
    (h : (cands.any (fun cand =>
        ((jmGet dmap cand).getD []).any (fun g => checkGameMatch g cand fn rp cp args))) = false) :
    cands.foldl (matchCandidate ts now dmap pid k fn rp cp args) dc = dc := by
  induction cands generalizing dc with
  | nil => rfl
  | cons cand cs ih =>
    simp only [List.any_cons, Bool.or_eq_false_iff] at h
    rw [List.foldl_cons]
    rw [show matchCandidate ts now dmap pid k fn rp cp args dc cand = dc from by
      unfold matchCandidate
      cases hg : jmGet dmap cand with
      | none => rfl
      | some gl =>
        apply gamesFold_id_no_match
        intro g hgmem
        have := h.1
        rw [hg] at this
        simp only [Option.getD_some, List.any_eq_false] at this
        exact Bool.eq_false_iff.mpr (this g hgmem)]
    exact ih dc (by simp [h.2])

theorem candsFold_cacheKey_isSome_mono (ts : List (JSStr × Nat)) (now : Nat)
    (dmap : List (JSStr × List DetectableGame)) (pid : Nat)
    (k fn rp cp : JSStr) (args : List JSStr) (cands : List JSStr)
    (dc : List (JSStr × DetectedGame) × List (JSStr × DetectedGame))
    (h : (jmGet dc.2 k).isSome) :
    (jmGet (cands.foldl (matchCandidate ts now dmap pid k fn rp cp args) dc).2 k).isSome := by
  induction cands generalizing dc with
  | nil => exact h
  | cons cand cs ih =>
    rw [List.foldl_cons]
    apply ih
    unfold matchCandidate
    cases jmGet dmap cand with
    | none => exact h
    | some gl => exact gamesFold_cacheKey_isSome_mono ts now pid k cand fn rp cp args gl dc h

theorem candsFold_some_match (ts : List (JSStr × Nat)) (now : Nat)
    (dmap : List (JSStr × List DetectableGame)) (pid : Nat)
    (k fn rp cp : JSStr) (args : List JSStr) (cands : List JSStr)
    (dc : List (JSStr × DetectedGame) × List (JSStr × DetectedGame))
    (h : (cands.any (fun cand =>
        ((jmGet dmap cand).getD []).any (fun g => checkGameMatch g cand fn rp cp args))) = true) :
    (jmGet (cands.foldl (matchCandidate ts now dmap pid k fn rp cp args) dc).2 k).isSome := by
  induction cands generalizing dc with
  | nil => simp at h
  | cons cand cs ih =>
    simp only [List.any_cons, Bool.or_eq_true] at h
    rw [List.foldl_cons]
    rcases h with h | h
    · apply candsFold_cacheKey_isSome_mono
      unfold matchCandidate
      cases hg : jmGet dmap cand with
      | none => rw [hg] at h; simp at h
      | some gl =>
        apply gamesFold_some_match
        rw [hg] at h
        simp only [Option.getD_some, List.any_eq_true] at h
        exact h
    · exact ih _ h

theorem stepProcess_hit (dmap : List (JSStr × List DetectableGame))
    (ts : List (JSStr × Nat)) (now : Nat) (acc : ScanAcc) (p : ProcessEntry)
    (cached : DetectedGame) (h : jmGet acc.cache (keyOfP p) = some cached) :
    stepProcess dmap ts now acc p =
      ⟨jmSet acc.detected cached.id ⟨cached.id, cached.name, p.pid, truthyOr ts cached.id now⟩,
       jmSet acc.cache (keyOfP p) ⟨cached.id, cached.name, p.pid, truthyOr ts cached.id now⟩,
       setAdd acc.seen (keyOfP p)⟩ := by
  unfold keyOfP at h ⊢
  simp only [stepProcess]
  rw [h]

theorem stepProcess_miss_invalid (dmap : List (JSStr × List DetectableGame))
    (ts : List (JSStr × Nat)) (now : Nat) (acc : ScanAcc) (p : ProcessEntry)
    (h : jmGet acc.cache (keyOfP p) = none)
    (hv : isValidProcess p.pid (normPath p.path) = false) :
    stepProcess dmap ts now acc p = ⟨acc.detected, acc.cache, setAdd acc.seen (keyOfP p)⟩ := by
  unfold keyOfP at h ⊢
  simp only [stepProcess]
  rw [h]
  simp [hv]

theorem stepProcess_miss_emptyfn (dmap : List (JSStr × List DetectableGame))
    (ts : List (JSStr × Nat)) (now : Nat) (acc : ScanAcc) (p : ProcessEntry)
    (h : jmGet acc.cache (keyOfP p) = none)
    (hv : isValidProcess p.pid (normPath p.path) = true) (hf : fnOfP p = []) :
    stepProcess dmap ts now acc p = ⟨acc.detected, acc.cache, setAdd acc.seen (keyOfP p)⟩ := by
  unfold keyOfP at h ⊢
  unfold fnOfP at hf
  simp only [stepProcess]
  rw [h]
  rw [if_neg (by simp [hv])]
  rw [if_pos hf]

theorem stepProcess_miss_valid (dmap : List (JSStr × List DetectableGame))
    (ts : List (JSStr × Nat)) (now : Nat) (acc : ScanAcc) (p : ProcessEntry)
    (h : jmGet acc.cache (keyOfP p) = none)
    (hv : isValidProcess p.pid (normPath p.path) = true) (hf : fnOfP p ≠ []) :
    stepProcess dmap ts now acc p =
      ⟨((scanCandidates (fnOfP p)).foldl
          (matchCandidate ts now dmap p.pid (keyOfP p) (fnOfP p) (normPath p.path)
            (normPath p.cwd) p.args) (acc.detected, acc.cache)).1,
       ((scanCandidates (fnOfP p)).foldl
          (matchCandidate ts now dmap p.pid (keyOfP p) (fnOfP p) (normPath p.path)
            (normPath p.cwd) p.args) (acc.detected, acc.cache)).2,
       setAdd acc.seen (keyOfP p)⟩ := by
  unfold keyOfP at h ⊢
  unfold fnOfP at hf ⊢
  simp only [stepProcess]
  rw [h]
  rw [if_neg (by simp [hv])]
  rw [if_neg hf]
theorem step_cache_stable (dmap : List (JSStr × List DetectableGame))
    (ts : List (JSStr × Nat)) (now : Nat) (acc : ScanAcc) (p : ProcessEntry)
    (k2 : JSStr) (c : DetectedGame) (h : jmGet acc.cache k2 = some c) :
    ∃ c', jmGet (stepProcess dmap ts now acc p).cache k2 = some c' ∧ c'.id = c.id := by
  cases hc : jmGet acc.cache (keyOfP p) with
  | some cached =>
    rw [stepProcess_hit dmap ts now acc p cached hc]
    by_cases hk : k2 = keyOfP p
    · subst hk
      rw [hc] at h
      cases h
      exact ⟨_, jmGet_set_self _ _ _, rfl⟩
    · refine ⟨c, ?_, rfl⟩
      simp only []
      rw [jmGet_set_ne _ _ _ _ hk]
      exact h
  | none =>
    by_cases hv : isValidProcess p.pid (normPath p.path) = true
    · by_cases hf : fnOfP p = []
      · rw [stepProcess_miss_emptyfn dmap ts now acc p hc hv hf]
        exact ⟨c, h, rfl⟩
      · rw [stepProcess_miss_valid dmap ts now acc p hc hv hf]
        by_cases hk : k2 = keyOfP p
        · subst hk
          rw [hc] at h
          cases h
        · refine ⟨c, ?_, rfl⟩
          simp only []
          rw [candsFold_cache_other _ _ _ _ _ _ _ _ _ _ _ _ hk]
          exact h
    · rw [stepProcess_miss_invalid dmap ts now acc p hc (by simpa using hv)]
      exact ⟨c, h, rfl⟩

theorem step_detectedOk (dmap : List (JSStr × List DetectableGame))
    (ts : List (JSStr × Nat)) (now : Nat) (acc : ScanAcc) (p : ProcessEntry)
    (h : detectedOk ts now acc.detected) :
    detectedOk ts now (stepProcess dmap ts now acc p).detected := by
  cases hc : jmGet acc.cache (keyOfP p) with
  | some cached =>
    rw [stepProcess_hit dmap ts now acc p cached hc]
    simp only []
    exact detectedOk_set ts now acc.detected cached.id cached.name p.pid h
  | none =>
    by_cases hv : isValidProcess p.pid (normPath p.path) = true
    · by_cases hf : fnOfP p = []
      · rw [stepProcess_miss_emptyfn dmap ts now acc p hc hv hf]
        exact h
      · rw [stepProcess_miss_valid dmap ts now acc p hc hv hf]
        exact candsFold_detectedOk _ _ _ _ _ _ _ _ _ _ _ h
    · rw [stepProcess_miss_invalid dmap ts now acc p hc (by simpa using hv)]
      exact h

theorem step_detected_isSome (dmap : List (JSStr × List DetectableGame))
    (ts : List (JSStr × Nat)) (now : Nat) (acc : ScanAcc) (p : ProcessEntry)
    (id : JSStr) (h : (jmGet acc.detected id).isSome) :
    (jmGet (stepProcess dmap ts now acc p).detected id).isSome := by
  cases hc : jmGet acc.cache (keyOfP p) with
  | some cached =>
    rw [stepProcess_hit dmap ts now acc p cached hc]
    exact jmGet_set_isSome _ _ _ _ h
  | none =>
    by_cases hv : isValidProcess p.pid (normPath p.path) = true
    · by_cases hf : fnOfP p = []
      · rw [stepProcess_miss_emptyfn dmap ts now acc p hc hv hf]
        exact h
      · rw [stepProcess_miss_valid dmap ts now acc p hc hv hf]
        exact candsFold_detected_isSome _ _ _ _ _ _ _ _ _ _ _ _ h
    · rw [stepProcess_miss_invalid dmap ts now acc p hc (by simpa using hv)]
      exact h

theorem step_detected_nodup (dmap : List (JSStr × List DetectableGame))
    (ts : List (JSStr × Nat)) (now : Nat) (acc : ScanAcc) (p : ProcessEntry)
    (h : (jmKeys acc.detected).Nodup) :
    (jmKeys (stepProcess dmap ts now acc p).detected).Nodup := by
  cases hc : jmGet acc.cache (keyOfP p) with
  | some cached =>
    rw [stepProcess_hit dmap ts now acc p cached hc]
    exact jmKeys_nodup_set _ _ _ h
  | none =>
    by_cases hv : isValidProcess p.pid (normPath p.path) = true
    · by_cases hf : fnOfP p = []
      · rw [stepProcess_miss_emptyfn dmap ts now acc p hc hv hf]
        exact h
      · rw [stepProcess_miss_valid dmap ts now acc p hc hv hf]
        exact candsFold_detected_nodup _ _ _ _ _ _ _ _ _ _ _ h
    · rw [stepProcess_miss_invalid dmap ts now acc p hc (by simpa using hv)]
      exact h

theorem step_new_cache_detected (dmap : List (JSStr × List DetectableGame))
    (ts : List (JSStr × Nat)) (now : Nat) (acc : ScanAcc) (p : ProcessEntry)
    (k2 : JSStr) (c : DetectedGame) (h0 : jmGet acc.cache k2 = none)
    (h1 : jmGet (stepProcess dmap ts now acc p).cache k2 = some c) :
    (jmGet (stepProcess dmap ts now acc p).detected c.id).isSome := by
  cases hc : jmGet acc.cache (keyOfP p) with
  | some cached =>
    rw [stepProcess_hit dmap ts now acc p cached hc] at h1 ⊢
    simp only [] at h1 ⊢
    by_cases hk : k2 = keyOfP p
    · subst hk
      rw [hc] at h0
      cases h0
    · rw [jmGet_set_ne _ _ _ _ hk] at h1
      rw [h0] at h1
      cases h1
  | none =>
    by_cases hv : isValidProcess p.pid (normPath p.path) = true
    · by_cases hf : fnOfP p = []
      · rw [stepProcess_miss_emptyfn dmap ts now acc p hc hv hf] at h1 ⊢
        simp only [] at h1
        rw [h0] at h1
        cases h1
      · rw [stepProcess_miss_valid dmap ts now acc p hc hv hf] at h1 ⊢
        simp only [] at h1 ⊢
        by_cases hk : k2 = keyOfP p
        · subst hk
          exact candsFold_cache_link _ _ _ _ _ _ _ _ _ _ _
            (fun c2 hc2 => by simp only [] at hc2; rw [h0] at hc2; cases hc2) c h1
        · rw [candsFold_cache_other _ _ _ _ _ _ _ _ _ _ _ _ hk] at h1
          simp only [] at h1
          rw [h0] at h1
          cases h1
    · rw [stepProcess_miss_invalid dmap ts now acc p hc (by simpa using hv)] at h1 ⊢
      simp only [] at h1
      rw [h0] at h1
      cases h1

theorem step_cache_isSome_mono (dmap : List (JSStr × List DetectableGame))
    (ts : List (JSStr × Nat)) (now : Nat) (acc : ScanAcc) (p : ProcessEntry)
    (k2 : JSStr) (h : (jmGet acc.cache k2).isSome) :
    (jmGet (stepProcess dmap ts now acc p).cache k2).isSome := by
  obtain ⟨c, hc⟩ := Option.isSome_iff_exists.mp h
  obtain ⟨c', hc', _⟩ := step_cache_stable dmap ts now acc p k2 c hc
  rw [hc']
  rfl

theorem step_match_cache_isSome (dmap : List (JSStr × List DetectableGame))
    (ts : List (JSStr × Nat)) (now : Nat) (acc : ScanAcc) (p : ProcessEntry)
    (hv : isValidProcess p.pid (normPath p.path) = true) (hf : fnOfP p ≠ [])
    (hm : anyMatchOf dmap p = true) :
    (jmGet (stepProcess dmap ts now acc p).cache (keyOfP p)).isSome := by
  cases hc : jmGet acc.cache (keyOfP p) with
  | some cached =>
    rw [stepProcess_hit dmap ts now acc p cached hc]
    simp only []
    rw [jmGet_set_self]
    rfl
  | none =>
    rw [stepProcess_miss_valid dmap ts now acc p hc hv hf]
    simp only []
    exact candsFold_some_match _ _ _ _ _ _ _ _ _ _ _ hm

theorem fold_cache_stable (dmap : List (JSStr × List DetectableGame))
    (ts : List (JSStr × Nat)) (now : Nat) (ps : List ProcessEntry) (acc : ScanAcc)
    (k2 : JSStr) (c : DetectedGame) (h : jmGet acc.cache k2 = some c) :
    ∃ c', jmGet (ps.foldl (stepProcess dmap ts now) acc).cache k2 = some c'
      ∧ c'.id = c.id := by
  induction ps generalizing acc c with
  | nil => exact ⟨c, h, rfl⟩
  | cons p ps2 ih =>
    rw [List.foldl_cons]
    obtain ⟨c1, hc1, hid1⟩ := step_cache_stable dmap ts now acc p k2 c h
    obtain ⟨c2, hc2, hid2⟩ := ih (stepProcess dmap ts now acc p) c1 hc1
    exact ⟨c2, hc2, hid2.trans hid1⟩

theorem fold_detectedOk (dmap : List (JSStr × List DetectableGame))
    (ts : List (JSStr × Nat)) (now : Nat) (ps : List ProcessEntry) (acc : ScanAcc)
    (h : detectedOk ts now acc.detected) :
    detectedOk ts now (ps.foldl (stepProcess dmap ts now) acc).detected := by
  induction ps generalizing acc with
  | nil => exact h
  | cons p ps2 ih =>
    rw [List.foldl_cons]
    exact ih _ (step_detectedOk dmap ts now acc p h)

theorem fold_detected_isSome (dmap : List (JSStr × List DetectableGame))
    (ts : List (JSStr × Nat)) (now : Nat) (ps : List ProcessEntry) (acc : ScanAcc)
    (id : JSStr) (h : (jmGet acc.detected id).isSome) :
    (jmGet (ps.foldl (stepProcess dmap ts now) acc).detected id).isSome := by
  induction ps generalizing acc with
  | nil => exact h
  | cons p ps2 ih =>
    rw [List.foldl_cons]
    exact ih _ (step_detected_isSome dmap ts now acc p id h)

theorem fold_detected_nodup (dmap : List (JSStr × List DetectableGame))
    (ts : List (JSStr × Nat)) (now : Nat) (ps : List ProcessEntry) (acc : ScanAcc)
    (h : (jmKeys acc.detected).Nodup) :
    (jmKeys (ps.foldl (stepProcess dmap ts now) acc).detected).Nodup := by
  induction ps generalizing acc with
  | nil => exact h
  | cons p ps2 ih =>
    rw [List.foldl_cons]
    exact ih _ (step_detected_nodup dmap ts now acc p h)

theorem fold_cache_isSome_mono (dmap : List (JSStr × List DetectableGame))
    (ts : List (JSStr × Nat)) (now : Nat) (ps : List ProcessEntry) (acc : ScanAcc)
    (k2 : JSStr) (h : (jmGet acc.cache k2).isSome) :
    (jmGet (ps.foldl (stepProcess dmap ts now) acc).cache k2).isSome := by
  induction ps generalizing acc with
  | nil => exact h
  | cons p ps2 ih =>
    rw [List.foldl_cons]
    exact ih _ (step_cache_isSome_mono dmap ts now acc p k2 h)

theorem fold_new_cache_detected (dmap : List (JSStr × List DetectableGame))
    (ts : List (JSStr × Nat)) (now : Nat) (ps : List ProcessEntry) (acc : ScanAcc)
    (k2 : JSStr) (h0 : jmGet acc.cache k2 = none) :
    ∀ c, jmGet (ps.foldl (stepProcess dmap ts now) acc).cache k2 = some c →
      (jmGet (ps.foldl (stepProcess dmap ts now) acc).detected c.id).isSome := by
  induction ps generalizing acc with
  | nil =>
    intro c hc
    simp only [List.foldl_nil] at hc
    rw [h0] at hc
    cases hc
  | cons p ps2 ih =>
    intro c hc
    rw [List.foldl_cons] at hc ⊢
    cases h1 : jmGet (stepProcess dmap ts now acc p).cache k2 with
    | none => exact ih _ h1 c hc
    | some c1 =>
      have hd1 := step_new_cache_detected dmap ts now acc p k2 c1 h0 h1
      obtain ⟨c2, hc2, hid2⟩ := fold_cache_stable dmap ts now ps2 _ k2 c1 h1
      rw [hc] at hc2
      cases hc2
      rw [hid2]
      exact fold_detected_isSome dmap ts now ps2 _ c1.id hd1

theorem step_key_cache_detected (dmap : List (JSStr × List DetectableGame))
    (ts : List (JSStr × Nat)) (now : Nat) (acc : ScanAcc) (p : ProcessEntry)
    (c : DetectedGame)
    (h : jmGet (stepProcess dmap ts now acc p).cache (keyOfP p) = some c) :
    (jmGet (stepProcess dmap ts now acc p).detected c.id).isSome := by
  cases hc : jmGet acc.cache (keyOfP p) with
  | some cached =>
    rw [stepProcess_hit dmap ts now acc p cached hc] at h ⊢
    simp only [] at h ⊢
    rw [jmGet_set_self] at h
    cases h
    simp [jmGet_set_self]
  | none => exact step_new_cache_detected dmap ts now acc p (keyOfP p) c hc h

theorem fold_key_detected (dmap : List (JSStr × List DetectableGame))
    (ts : List (JSStr × Nat)) (now : Nat) (ps : List ProcessEntry) (acc : ScanAcc)
    (p : ProcessEntry) (hp : p ∈ ps) :
    ∀ c, jmGet (ps.foldl (stepProcess dmap ts now) acc).cache (keyOfP p) = some c →
      (jmGet (ps.foldl (stepProcess dmap ts now) acc).detected c.id).isSome := by
  obtain ⟨pre, suf, rfl⟩ := List.append_of_mem hp
  intro c hc
  rw [List.foldl_append, List.foldl_cons] at hc ⊢
  cases h1 : jmGet (stepProcess dmap ts now (pre.foldl (stepProcess dmap ts now) acc) p).cache
      (keyOfP p) with
  | none => exact fold_new_cache_detected dmap ts now suf _ (keyOfP p) h1 c hc
  | some c1 =>
    have hd1 := step_key_cache_detected dmap ts now _ p c1 h1
    obtain ⟨c2, hc2, hid2⟩ := fold_cache_stable dmap ts now suf _ (keyOfP p) c1 h1
    rw [hc] at hc2
    cases hc2
    rw [hid2]
    exact fold_detected_isSome dmap ts now suf _ c1.id hd1

theorem fold_key_match_present (dmap : List (JSStr × List DetectableGame))
    (ts : List (JSStr × Nat)) (now : Nat) (ps : List ProcessEntry) (acc : ScanAcc)
    (p : ProcessEntry) (hp : p ∈ ps)
    (hv : isValidProcess p.pid (normPath p.path) = true) (hf : fnOfP p ≠ [])
    (hm : anyMatchOf dmap p = true) :
    (jmGet (ps.foldl (stepProcess dmap ts now) acc).cache (keyOfP p)).isSome := by
  obtain ⟨pre, suf, rfl⟩ := List.append_of_mem hp
  rw [List.foldl_append, List.foldl_cons]
  exact fold_cache_isSome_mono dmap ts now suf _ (keyOfP p)
    (step_match_cache_isSome dmap ts now _ p hv hf hm)

theorem decDigit_ne_nul (n : Nat) : decDigit n ≠ '\x00' := by
  unfold decDigit
  split <;> decide

theorem nul_not_mem_natToStrFuel (f n : Nat) : '\x00' ∉ natToStrFuel f n := by
  induction f generalizing n with
  | zero => simp [natToStrFuel]
  | succ f2 ih =>
    unfold natToStrFuel
    split
    · simp only [List.mem_singleton]
      exact fun h => decDigit_ne_nul n h.symm
    · simp only [List.mem_append, List.mem_singleton]
      rintro (h | h)
      · exact ih (n / 10) h
      · exact decDigit_ne_nul (n % 10) h.symm

theorem nul_not_mem_natToStr (n : Nat) : '\x00' ∉ natToStr n :=
  nul_not_mem_natToStrFuel (n + 1) n

theorem jmGet_foldl_del {α : Type} (l : List Nat) (m : List (JSStr × α)) (k : JSStr)
    (h : ∀ i ∈ l, k ≠ natToStr i) :
    jmGet (l.foldl (fun c i => jmDel c (natToStr i)) m) k = jmGet m k := by
  induction l generalizing m with
  | nil => rfl
  | cons i l2 ih =>
    rw [List.foldl_cons]
    rw [ih _ (fun j hj => h j (List.mem_cons_of_mem _ hj))]
    exact jmGet_del_ne _ _ _ (h i (List.mem_cons_self _ _))

theorem jmGet_cacheGc (cache : List (JSStr × DetectedGame)) (seen : List JSStr)
    (k : JSStr) (hk : '\x00' ∈ k) :
    jmGet (cacheGc cache seen) k = jmGet cache k := by
  unfold cacheGc
  split
  · exact jmGet_foldl_del _ _ _ (fun i _ hne => nul_not_mem_natToStr i (hne ▸ hk))
  · rfl

theorem nul_mem_keyOfP (p : ProcessEntry) : '\x00' ∈ keyOfP p := by
  unfold keyOfP cacheKeyOf
  simp

theorem handleOne_ts_self (st : EmitState) (g : DetectedGame)
    (HGg : ∀ t, jmGet st.ts g.id = some t → t ≠ 0 → g.timestamp = t) :
    jmGet (handleOne st g).ts g.id = some g.timestamp := by
  unfold handleOne
  simp only []
  split
  · next hz => rw [jmGet_set_self]
  · next hz =>
    cases hl : jmGet st.ts g.id with
    | none => rw [hl] at hz; simp at hz
    | some t =>
      rw [hl] at hz
      simp only [Option.getD_some] at hz
      rw [HGg t hl hz]

theorem handleOne_other (st : EmitState) (g : DetectedGame) (id : JSStr)
    (hne : g.id ≠ id) :
    jmGet (handleOne st g).ts id = jmGet st.ts id
    ∧ jmGet (handleOne st g).names id = jmGet st.names id
    ∧ jmGet (handleOne st g).pids id = jmGet st.pids id := by
  unfold handleOne
  simp only []
  refine ⟨?_, jmGet_set_ne _ _ _ _ (Ne.symm hne), jmGet_set_ne _ _ _ _ (Ne.symm hne)⟩
  split
  · exact jmGet_set_ne _ _ _ _ (Ne.symm hne)
  · rfl

theorem handleOne_events (st : EmitState) (g : DetectedGame)
    (HGg : ∀ t, jmGet st.ts g.id = some t → t ≠ 0 → g.timestamp = t) :
    (handleOne st g).events =
      st.events ++ [ActivityEvent.set g.id g.name (some g.timestamp) g.pid] := by
  have h := handleOne_ts_self st g HGg
  unfold handleOne at h ⊢
  simp only [] at h ⊢
  rw [h]

theorem handleFold_char (games : List DetectedGame) (st : EmitState)
    (hnd : (games.map DetectedGame.id).Nodup)
    (HG : ∀ g ∈ games, ∀ t, jmGet st.ts g.id = some t → t ≠ 0 → g.timestamp = t) :
    (∀ g ∈ games, jmGet (games.foldl handleOne st).ts g.id = some g.timestamp)
    ∧ (∀ id, (∀ g ∈ games, g.id ≠ id) →
        jmGet (games.foldl handleOne st).ts id = jmGet st.ts id
        ∧ jmGet (games.foldl handleOne st).names id = jmGet st.names id
        ∧ jmGet (games.foldl handleOne st).pids id = jmGet st.pids id)
    ∧ (games.foldl handleOne st).events =
        st.events ++ games.map (fun g => ActivityEvent.set g.id g.name (some g.timestamp) g.pid) := by
  induction games generalizing st with
  | nil => exact ⟨fun g hg => absurd hg (List.not_mem_nil g), fun id h => ⟨rfl, rfl, rfl⟩, by simp⟩
  | cons g gs ih =>
    simp only [List.map_cons, List.nodup_cons] at hnd
    have HGg := HG g (List.mem_cons_self _ _)
    have hgid : ∀ g2 ∈ gs, g2.id ≠ g.id := by
      intro g2 hg2 heq
      exact hnd.1 (List.mem_map.mpr ⟨g2, hg2, heq⟩)
    have hself := handleOne_ts_self st g HGg
    have HG2 : ∀ g2 ∈ gs, ∀ t, jmGet (handleOne st g).ts g2.id = some t → t ≠ 0 →
        g2.timestamp = t := by
      intro g2 hg2 t hl hz
      rw [(handleOne_other st g g2.id (fun h => hgid g2 hg2 h.symm)).1] at hl
      exact HG g2 (List.mem_cons_of_mem _ hg2) t hl hz
    obtain ⟨ih1, ih2, ih3⟩ := ih (handleOne st g) hnd.2 HG2
    refine ⟨?_, ?_, ?_⟩
    · intro g2 hg2
      rw [List.foldl_cons]
      rcases List.mem_cons.mp hg2 with rfl | hmem
      · rw [(ih2 g2.id hgid).1]
        exact hself
      · exact ih1 g2 hmem
    · intro id hid
      rw [List.foldl_cons]
      obtain ⟨i1, i2, i3⟩ := ih2 id (fun g2 hg2 => hid g2 (List.mem_cons_of_mem _ hg2))
      obtain ⟨o1, o2, o3⟩ := handleOne_other st g id (hid g (List.mem_cons_self _ _))
      exact ⟨i1.trans o1, i2.trans o2, i3.trans o3⟩
    · rw [List.foldl_cons, ih3, handleOne_events st g HGg]
      simp

theorem cleanupFold_active (activeIds : List JSStr) (l : List JSStr) (st : EmitState)
    (id : JSStr) (hid : id ∈ activeIds) :
    jmGet (l.foldl (cleanupOne activeIds) st).ts id = jmGet st.ts id
    ∧ jmGet (l.foldl (cleanupOne activeIds) st).names id = jmGet st.names id
    ∧ jmGet (l.foldl (cleanupOne activeIds) st).pids id = jmGet st.pids id := by
  induction l generalizing st with
  | nil => exact ⟨rfl, rfl, rfl⟩
  | cons a l2 ih =>
    rw [List.foldl_cons]
    obtain ⟨i1, i2, i3⟩ := ih (cleanupOne activeIds st a)
    have ho : jmGet (cleanupOne activeIds st a).ts id = jmGet st.ts id
        ∧ jmGet (cleanupOne activeIds st a).names id = jmGet st.names id
        ∧ jmGet (cleanupOne activeIds st a).pids id = jmGet st.pids id := by
      unfold cleanupOne
      split
      · exact ⟨rfl, rfl, rfl⟩
      · next ha =>
        have hne : id ≠ a := fun h => ha (h ▸ hid)
        exact ⟨jmGet_del_ne _ _ _ hne, jmGet_del_ne _ _ _ hne, jmGet_del_ne _ _ _ hne⟩
    exact ⟨i1.trans ho.1, i2.trans ho.2.1, i3.trans ho.2.2⟩

theorem cleanupFold_ts_none (activeIds : List JSStr) (l : List JSStr) (st : EmitState)
    (id : JSStr) (hid : id ∉ activeIds)
    (h : id ∈ l ∨ jmGet st.ts id = none) :
    jmGet (l.foldl (cleanupOne activeIds) st).ts id = none := by
  induction l generalizing st with
  | nil =>
    rcases h with h | h
    · simp at h
    · exact h
  | cons a l2 ih =>
    rw [List.foldl_cons]
    by_cases ha : id = a
    · subst ha
      apply ih
      right
      unfold cleanupOne
      rw [if_neg hid]
      exact jmGet_del_self _ _
    · rcases h with h | h
      · rcases List.mem_cons.mp h with h2 | h2
        · exact absurd h2 ha
        · exact ih _ (Or.inl h2)
      · apply ih
        right
        unfold cleanupOne
        split
        · exact h
        · simp only []
          rw [jmGet_del_ne _ _ _ ha]
          exact h

theorem clearsFor_append (evs1 evs2 : List ActivityEvent) (id : JSStr) :
    clearsFor (evs1 ++ evs2) id = clearsFor evs1 id ++ clearsFor evs2 id := by
  simp [clearsFor]

theorem setStartsFor_append (evs1 evs2 : List ActivityEvent) (id : JSStr) :
    setStartsFor (evs1 ++ evs2) id = setStartsFor evs1 id ++ setStartsFor evs2 id := by
  simp [setStartsFor]

theorem cleanupFold_none_mono (activeIds : List JSStr) (l : List JSStr) (st : EmitState)
    (id : JSStr) :
    (jmGet st.names id = none → jmGet (l.foldl (cleanupOne activeIds) st).names id = none)
    ∧ (jmGet st.pids id = none → jmGet (l.foldl (cleanupOne activeIds) st).pids id = none) := by
  induction l generalizing st with
  | nil => exact ⟨fun h => h, fun h => h⟩
  | cons a l2 ih =>
    rw [List.foldl_cons]
    have ho : (jmGet st.names id = none → jmGet (cleanupOne activeIds st a).names id = none)
        ∧ (jmGet st.pids id = none → jmGet (cleanupOne activeIds st a).pids id = none) := by
      unfold cleanupOne
      split
      · exact ⟨fun h => h, fun h => h⟩
      · constructor <;> intro h <;> simp only [] <;> by_cases ha : id = a
        · subst ha; exact jmGet_del_self _ _
        · rw [jmGet_del_ne _ _ _ ha]; exact h
        · subst ha; exact jmGet_del_self _ _
        · rw [jmGet_del_ne _ _ _ ha]; exact h
    exact ⟨fun h => (ih _).1 (ho.1 h), fun h => (ih _).2 (ho.2 h)⟩

theorem cleanupFold_lost_maps (activeIds : List JSStr) (l : List JSStr) (st : EmitState)
    (id : JSStr) (hid : id ∉ activeIds) (hl : id ∈ l) :
    jmGet (l.foldl (cleanupOne activeIds) st).names id = none
    ∧ jmGet (l.foldl (cleanupOne activeIds) st).pids id = none := by
  induction l generalizing st with
  | nil => simp at hl
  | cons a l2 ih =>
    rw [List.foldl_cons]
    by_cases ha : id = a
    · subst ha
      have h1 : jmGet (cleanupOne activeIds st id).names id = none := by
        unfold cleanupOne
        rw [if_neg hid]
        exact jmGet_del_self _ _
      have h2 : jmGet (cleanupOne activeIds st id).pids id = none := by
        unfold cleanupOne
        rw [if_neg hid]
        exact jmGet_del_self _ _
      exact ⟨(cleanupFold_none_mono activeIds l2 _ id).1 h1,
             (cleanupFold_none_mono activeIds l2 _ id).2 h2⟩
    · rcases List.mem_cons.mp hl with h2 | h2
      · exact absurd h2 ha
      · exact ih _ h2

theorem cleanupFold_setStarts (activeIds : List JSStr) (l : List JSStr) (st : EmitState)
    (id : JSStr) :
    setStartsFor (l.foldl (cleanupOne activeIds) st).events id = setStartsFor st.events id := by
  induction l generalizing st with
  | nil => rfl
  | cons a l2 ih =>
    rw [List.foldl_cons, ih]
    unfold cleanupOne
    split
    · rfl
    · simp only []
      rw [setStartsFor_append]
      simp [setStartsFor]

theorem cleanupFold_clears_not_mem (activeIds : List JSStr) (l : List JSStr)
    (st : EmitState) (id : JSStr) (hl : id ∉ l) :
    clearsFor (l.foldl (cleanupOne activeIds) st).events id = clearsFor st.events id := by
  induction l generalizing st with
  | nil => rfl
  | cons a l2 ih =>
    have hne : id ≠ a := fun h => hl (h ▸ List.mem_cons_self _ _)
    have hl2 : id ∉ l2 := fun h => hl (List.mem_cons_of_mem _ h)
    rw [List.foldl_cons, ih _ hl2]
    unfold cleanupOne
    split
    · rfl
    · simp only []
      rw [clearsFor_append]
      simp [clearsFor, Ne.symm hne]

theorem cleanupFold_clears (activeIds : List JSStr) (l : List JSStr) (st : EmitState)
    (id : JSStr) (hid : id ∉ activeIds) (hl : id ∈ l) (hnd : l.Nodup) :
    clearsFor (l.foldl (cleanupOne activeIds) st).events id =
      clearsFor st.events id ++ [jmGet st.pids id] := by
  induction l generalizing st with
  | nil => simp at hl
  | cons a l2 ih =>
    simp only [List.nodup_cons] at hnd
    rw [List.foldl_cons]
    by_cases ha : id = a
    · subst ha
      have hst1 : (cleanupOne activeIds st id).events =
          st.events ++ [ActivityEvent.clear id (jmGet st.pids id)] := by
        unfold cleanupOne
        rw [if_neg hid]
      rw [cleanupFold_clears_not_mem activeIds l2 _ id hnd.1, hst1, clearsFor_append]
      simp [clearsFor]
    · rcases List.mem_cons.mp hl with h2 | h2
      · exact absurd h2 ha
      · have hev : clearsFor (cleanupOne activeIds st a).events id = clearsFor st.events id := by
          unfold cleanupOne
          split
          · rfl
          · simp only []
            rw [clearsFor_append]
            simp [clearsFor, Ne.symm ha]
        have hpid : jmGet (cleanupOne activeIds st a).pids id = jmGet st.pids id := by
          unfold cleanupOne
          split
          · rfl
          · simp only []
            exact jmGet_del_ne _ _ _ ha
        rw [ih _ h2 hnd.2, hev, hpid]

theorem truthyOr_ne_zero (ts : List (JSStr × Nat)) (id : JSStr) (now : Nat)
    (h : now ≠ 0) : truthyOr ts id now ≠ 0 := by
  unfold truthyOr
  cases jmGet ts id with
  | none => exact h
  | some t =>
    simp only []
    split
    · exact h
    · assumption

theorem scan_eq (dmap : List (JSStr × List DetectableGame)) (st : EngineState)
    (ps : List ProcessEntry) (now : Nat) :
    scan dmap st ps now =
      ⟨(ps.foldl (stepProcess dmap st.timestamps now) ⟨[], st.cache, []⟩).detected,
       ⟨(handleScanResults
            ((ps.foldl (stepProcess dmap st.timestamps now) ⟨[], st.cache, []⟩).detected.map (·.2))
            ⟨st.timestamps, st.names, st.pids, []⟩).ts,
        (handleScanResults
            ((ps.foldl (stepProcess dmap st.timestamps now) ⟨[], st.cache, []⟩).detected.map (·.2))
            ⟨st.timestamps, st.names, st.pids, []⟩).names,
        (handleScanResults
            ((ps.foldl (stepProcess dmap st.timestamps now) ⟨[], st.cache, []⟩).detected.map (·.2))
            ⟨st.timestamps, st.names, st.pids, []⟩).pids,
        cacheGc (ps.foldl (stepProcess dmap st.timestamps now) ⟨[], st.cache, []⟩).cache
          (ps.foldl (stepProcess dmap st.timestamps now) ⟨[], st.cache, []⟩).seen⟩,
       (handleScanResults
            ((ps.foldl (stepProcess dmap st.timestamps now) ⟨[], st.cache, []⟩).detected.map (·.2))
            ⟨st.timestamps, st.names, st.pids, []⟩).events⟩ := rfl

theorem scanAcc_detectedOk (dmap : List (JSStr × List DetectableGame)) (st : EngineState)
    (ps : List ProcessEntry) (now : Nat) :
    detectedOk st.timestamps now
      (ps.foldl (stepProcess dmap st.timestamps now) ⟨[], st.cache, []⟩).detected :=
  fold_detectedOk dmap st.timestamps now ps ⟨[], st.cache, []⟩ (fun id g h => by cases h)

theorem scanAcc_nodup (dmap : List (JSStr × List DetectableGame)) (st : EngineState)
    (ps : List ProcessEntry) (now : Nat) :
    (jmKeys (ps.foldl (stepProcess dmap st.timestamps now) ⟨[], st.cache, []⟩).detected).Nodup :=
  fold_detected_nodup dmap st.timestamps now ps ⟨[], st.cache, []⟩ (by simp [jmKeys])

theorem map_id_eq_keys (d : List (JSStr × DetectedGame))
    (hent : ∀ e ∈ d, e.2.id = e.1) :
    (d.map (·.2)).map DetectedGame.id = jmKeys d := by
  induction d with
  | nil => rfl
  | cons e rest ih =>
    simp only [List.map_cons, jmKeys]
    rw [hent e (List.mem_cons_self _ _),
      ih (fun e2 he2 => hent e2 (List.mem_cons_of_mem _ he2))]

theorem detected_games_facts (ts : List (JSStr × Nat)) (now : Nat)
    (d : List (JSStr × DetectedGame)) (hok : detectedOk ts now d)
    (hnd : (jmKeys d).Nodup) :
    (∀ g ∈ d.map (·.2), g.timestamp = truthyOr ts g.id now ∧ jmGet d g.id = some g)
    ∧ ((d.map (·.2)).map DetectedGame.id).Nodup
    ∧ (∀ id, (∃ g ∈ d.map (·.2), g.id = id) ↔ (jmGet d id).isSome) := by
  have hent : ∀ e ∈ d, e.2.id = e.1 := by
    intro e he
    exact (hok e.1 e.2 (jmGet_eq_some_of_mem d e.1 e.2 hnd he)).1
  refine ⟨?_, ?_, ?_⟩
  · intro g hg
    obtain ⟨e, he, rfl⟩ := List.mem_map.mp hg
    have hl := jmGet_eq_some_of_mem d e.1 e.2 hnd he
    obtain ⟨h1, h2⟩ := hok e.1 e.2 hl
    rw [h1]
    exact ⟨h2, hl⟩
  · rw [map_id_eq_keys d hent]
    exact hnd
  · intro id
    constructor
    · rintro ⟨g, hg, rfl⟩
      obtain ⟨e, he, rfl⟩ := List.mem_map.mp hg
      rw [hent e he, jmGet_eq_some_of_mem d e.1 e.2 hnd he]
      rfl
    · intro hsome
      obtain ⟨g, hg⟩ := Option.isSome_iff_exists.mp hsome
      exact ⟨g, List.mem_map.mpr ⟨(id, g), mem_of_jmGet_eq_some d id g hg, rfl⟩,
        (hok id g hg).1⟩

theorem handleFold_ts_nodup (games : List DetectedGame) (st : EmitState)
    (h : (jmKeys st.ts).Nodup) : (jmKeys (games.foldl handleOne st).ts).Nodup := by
  induction games generalizing st with
  | nil => exact h
  | cons g gs ih =>
    rw [List.foldl_cons]
    apply ih
    unfold handleOne
    simp only []
    split
    · exact jmKeys_nodup_set _ _ _ h
    · exact h

theorem setStartsFor_set_cons (sid nm : JSStr) (start : Option Nat) (pid : Nat)
    (evs : List ActivityEvent) (id : JSStr) :
    setStartsFor (ActivityEvent.set sid nm start pid :: evs) id =
      (if sid = id then [start] else []) ++ setStartsFor evs id := by
  unfold setStartsFor
  rw [List.filterMap_cons]
  by_cases h : sid = id
  · simp [h]
  · simp [h]

theorem setStartsFor_map_none (games : List DetectedGame) (id : JSStr)
    (h : ∀ g ∈ games, g.id ≠ id) :
    setStartsFor (games.map fun g => ActivityEvent.set g.id g.name (some g.timestamp) g.pid)
      id = [] := by
  induction games with
  | nil => rfl
  | cons g gs ih =>
    simp only [List.map_cons]
    rw [setStartsFor_set_cons, if_neg (h g (List.mem_cons_self _ _))]
    rw [List.nil_append]
    exact ih (fun g2 hg2 => h g2 (List.mem_cons_of_mem _ hg2))

theorem setStartsFor_map_single (games : List DetectedGame) (id : JSStr) (g0 : DetectedGame)
    (hnd : (games.map DetectedGame.id).Nodup) (hmem : g0 ∈ games) (hid : g0.id = id) :
    setStartsFor (games.map fun g => ActivityEvent.set g.id g.name (some g.timestamp) g.pid)
      id = [some g0.timestamp] := by
  induction games with
  | nil => simp at hmem
  | cons g gs ih =>
    simp only [List.map_cons, List.nodup_cons] at hnd
    rcases List.mem_cons.mp hmem with rfl | hmem2
    · simp only [List.map_cons]
      rw [setStartsFor_set_cons, if_pos hid]
      have hrest : ∀ g2 ∈ gs, g2.id ≠ id := by
        intro g2 hg2 heq
        exact hnd.1 (hid ▸ heq ▸ List.mem_map.mpr ⟨g2, hg2, rfl⟩)
      rw [setStartsFor_map_none gs id hrest]
      rfl
    · simp only [List.map_cons]
      have hne : g.id ≠ id := by
        intro heq
        exact hnd.1 (heq ▸ hid ▸ List.mem_map.mpr ⟨g0, hmem2, rfl⟩)
      rw [setStartsFor_set_cons, if_neg hne, List.nil_append]
      exact ih hnd.2 hmem2

theorem clearsFor_map_set (games : List DetectedGame) (id : JSStr) :
    clearsFor (games.map fun g => ActivityEvent.set g.id g.name (some g.timestamp) g.pid)
      id = [] := by
  induction games with
  | nil => rfl
  | cons g gs ih =>
    simp only [List.map_cons]
    unfold clearsFor at ih ⊢
    rw [List.filterMap_cons]
    exact ih

theorem scan_state_char (dmap : List (JSStr × List DetectableGame)) (st : EngineState)
    (ps : List ProcessEntry) (now : Nat) :
    (∀ id g, jmGet (scan dmap st ps now).detected id = some g →
        g.id = id ∧ g.timestamp = truthyOr st.timestamps id now
        ∧ jmGet (scan dmap st ps now).state.timestamps id = some g.timestamp
        ∧ setStartsFor (scan dmap st ps now).events id = [some g.timestamp])
    ∧ (∀ id, jmGet (scan dmap st ps now).detected id = none →
        jmGet (scan dmap st ps now).state.timestamps id = none) := by
  have hok := scanAcc_detectedOk dmap st ps now
  have hnd := scanAcc_nodup dmap st ps now
  obtain ⟨hfact1, hfact2, hfact3⟩ :=
    detected_games_facts st.timestamps now
      (ps.foldl (stepProcess dmap st.timestamps now) ⟨[], st.cache, []⟩).detected hok hnd
  have HG : ∀ g ∈ (ps.foldl (stepProcess dmap st.timestamps now) ⟨[], st.cache, []⟩).detected.map (·.2),
      ∀ t, jmGet (⟨st.timestamps, st.names, st.pids, []⟩ : EmitState).ts g.id = some t →
        t ≠ 0 → g.timestamp = t := by
    intro g hg t hl hz
    have := (hfact1 g hg).1
    rw [this]
    unfold truthyOr
    simp only [] at hl
    rw [hl]
    simp [hz]
  obtain ⟨hf1, hf2, hf3⟩ := handleFold_char _ ⟨st.timestamps, st.names, st.pids, []⟩ hfact2 HG
  constructor
  · intro id g hg
    have hgid := (hok id g hg).1
    have hmem : g ∈ (ps.foldl (stepProcess dmap st.timestamps now) ⟨[], st.cache, []⟩).detected.map (·.2) :=
      List.mem_map.mpr ⟨(id, g), mem_of_jmGet_eq_some _ id g hg, rfl⟩
    have hactive : id ∈ ((ps.foldl (stepProcess dmap st.timestamps now) ⟨[], st.cache, []⟩).detected.map (·.2)).map DetectedGame.id :=
      List.mem_map.mpr ⟨g, hmem, hgid⟩
    have htsmid := hf1 g hmem
    refine ⟨hgid, by rw [← hgid]; exact (hfact1 g hmem).1, ?_, ?_⟩
    · rw [scan_eq]
      simp only []
      unfold handleScanResults cleanupLostGames
      rw [← hgid] at hactive ⊢
      rw [(cleanupFold_active _ _ _ g.id hactive).1]
      exact htsmid
    · rw [scan_eq]
      simp only []
      unfold handleScanResults cleanupLostGames
      rw [cleanupFold_setStarts, hf3, setStartsFor_append]
      rw [← hgid]
      rw [setStartsFor_map_single _ g.id g hfact2 hmem rfl]
      rfl
  · intro id hg
    have hgF : jmGet (ps.foldl (stepProcess dmap st.timestamps now)
        ⟨[], st.cache, []⟩).detected id = none := hg
    have hnact : ∀ g ∈ (ps.foldl (stepProcess dmap st.timestamps now) ⟨[], st.cache, []⟩).detected.map (·.2),
        g.id ≠ id := by
      intro g2 hg2 heq
      have := (hfact3 id).mp ⟨g2, hg2, heq⟩
      rw [hgF] at this
      cases this
    have hactiveno : id ∉ ((ps.foldl (stepProcess dmap st.timestamps now) ⟨[], st.cache, []⟩).detected.map (·.2)).map DetectedGame.id := by
      intro hmem
      obtain ⟨g2, hg2, heq⟩ := List.mem_map.mp hmem
      exact hnact g2 hg2 heq
    have htsmid := (hf2 id hnact).1
    rw [scan_eq]
    simp only []
    unfold handleScanResults cleanupLostGames
    apply cleanupFold_ts_none _ _ _ id hactiveno
    cases hmid : jmGet (((ps.foldl (stepProcess dmap st.timestamps now)
        ⟨[], st.cache, []⟩).detected.map (·.2)).foldl handleOne
        ⟨st.timestamps, st.names, st.pids, []⟩).ts id with
    | none => exact Or.inr rfl
    | some t =>
      left
      rw [← jmGet_isSome_iff_mem_keys]
      rw [hmid]
      rfl

theorem rescan_fold_invariant (dmap : List (JSStr × List DetectableGame))
    (ts1 : List (JSStr × Nat)) (t2 : Nat)
    (D1 : List (JSStr × DetectedGame)) (C1f : List (JSStr × DetectedGame))
    (hts1 : ∀ id g1, jmGet D1 id = some g1 →
        jmGet ts1 id = some g1.timestamp ∧ g1.timestamp ≠ 0)
    (l : List ProcessEntry) (acc2 : ScanAcc)
    (hpres : ∀ k, '\x00' ∈ k → (jmGet C1f k).isSome → (jmGet acc2.cache k).isSome)
    (hids : ∀ p ∈ l, ∀ c, jmGet acc2.cache (keyOfP p) = some c → (jmGet D1 c.id).isSome)
    (hdet : ∀ id g, jmGet acc2.detected id = some g →
        ∃ g1, jmGet D1 id = some g1 ∧ g.timestamp = g1.timestamp)
    (hl7 : ∀ p ∈ l, (jmGet C1f (keyOfP p)).isSome = false →
        ¬(isValidProcess p.pid (normPath p.path) = true ∧ fnOfP p ≠ []
          ∧ anyMatchOf dmap p = true)) :
    ∀ id g, jmGet (l.foldl (stepProcess dmap ts1 t2) acc2).detected id = some g →
      ∃ g1, jmGet D1 id = some g1 ∧ g.timestamp = g1.timestamp := by
  induction l generalizing acc2 with
  | nil =>
    intro id g hg
    simp only [List.foldl_nil] at hg
    exact hdet id g hg
  | cons p l2 ih =>
    intro id g hg
    rw [List.foldl_cons] at hg
    cases hc : jmGet acc2.cache (keyOfP p) with
    | some cached =>
      have hD1 : (jmGet D1 cached.id).isSome :=
        hids p (List.mem_cons_self _ _) cached hc
      obtain ⟨g1, hg1⟩ := Option.isSome_iff_exists.mp hD1
      obtain ⟨hts, htz⟩ := hts1 cached.id g1 hg1
      have htr : truthyOr ts1 cached.id t2 = g1.timestamp := by
        unfold truthyOr
        rw [hts]
        simp [htz]
      rw [stepProcess_hit dmap ts1 t2 acc2 p cached hc] at hg
      refine ih _ ?_ ?_ ?_ (fun q hq => hl7 q (List.mem_cons_of_mem _ hq)) id g hg
      · intro k hk hsome
        simp only []
        exact jmGet_set_isSome _ _ _ _ (hpres k hk hsome)
      · intro q hq c hcq
        simp only [] at hcq
        by_cases hkq : keyOfP q = keyOfP p
        · rw [hkq, jmGet_set_self] at hcq
          cases hcq
          exact hD1
        · rw [jmGet_set_ne _ _ _ _ hkq] at hcq
          exact hids q (List.mem_cons_of_mem _ hq) c hcq
      · intro id2 g2 hg2
        simp only [] at hg2
        by_cases hid2 : id2 = cached.id
        · subst hid2
          rw [jmGet_set_self] at hg2
          cases hg2
          exact ⟨g1, hg1, htr⟩
        · rw [jmGet_set_ne _ _ _ _ hid2] at hg2
          exact hdet id2 g2 hg2
    | none =>
      have hC1f : (jmGet C1f (keyOfP p)).isSome = false := by
        cases hcf : (jmGet C1f (keyOfP p)).isSome with
        | false => rfl
        | true =>
          have := hpres (keyOfP p) (nul_mem_keyOfP p) hcf
          rw [hc] at this
          cases this
      have hstep : stepProcess dmap ts1 t2 acc2 p =
          ⟨acc2.detected, acc2.cache, setAdd acc2.seen (keyOfP p)⟩ := by
        by_cases hv : isValidProcess p.pid (normPath p.path) = true
        · by_cases hf : fnOfP p = []
          · exact stepProcess_miss_emptyfn dmap ts1 t2 acc2 p hc hv hf
          · have hnm : anyMatchOf dmap p = false := by
              cases ham : anyMatchOf dmap p with
              | false => rfl
              | true => exact absurd ⟨hv, hf, ham⟩ (hl7 p (List.mem_cons_self _ _) hC1f)
            rw [stepProcess_miss_valid dmap ts1 t2 acc2 p hc hv hf]
            rw [candsFold_no_match _ _ _ _ _ _ _ _ _ _ _ hnm]
        · exact stepProcess_miss_invalid dmap ts1 t2 acc2 p hc (by simpa using hv)
      rw [hstep] at hg
      refine ih _ ?_ ?_ ?_ (fun q hq => hl7 q (List.mem_cons_of_mem _ hq)) id g hg
      · intro k hk hsome
        exact hpres k hk hsome
      · intro q hq c hcq
        exact hids q (List.mem_cons_of_mem _ hq) c hcq
      · intro id2 g2 hg2
        exact hdet id2 g2 hg2

/-- C3 (amended): running `scan` twice on the same process list is not
literally idempotent, but the rescan's detected games are a subset of the
first scan's with identical timestamps (each game the rescan still detects
was detected by the first scan, with the same timestamp), the set-activity
events the rescan emits for those games carry the same start value as the
first scan's, and whenever a game id with no stored timestamp is detected
its timestamp is the scan's `now` (i.e. first detection stamps the current
time). -/
theorem scan_rescan_subset (dmap : List (JSStr × List DetectableGame)) (st0 : EngineState)
    (ps : List ProcessEntry) (t1 t2 : Nat) (h1 : t1 ≠ 0) :
    (∀ id g2, jmGet (scan dmap (scan dmap st0 ps t1).state ps t2).detected id = some g2 →
        ∃ g1, jmGet (scan dmap st0 ps t1).detected id = some g1
          ∧ g2.timestamp = g1.timestamp)
    ∧ (∀ id g2, jmGet (scan dmap (scan dmap st0 ps t1).state ps t2).detected id = some g2 →
        setStartsFor (scan dmap (scan dmap st0 ps t1).state ps t2).events id =
          setStartsFor (scan dmap st0 ps t1).events id)
    ∧ (∀ st : EngineState, ∀ ps2 : List ProcessEntry, ∀ now : Nat, ∀ id g,
        jmGet st.timestamps id = none →
        jmGet (scan dmap st ps2 now).detected id = some g → g.timestamp = now) := by
  have hchar1 := scan_state_char dmap st0 ps t1
  have hmain : ∀ id g2,
      jmGet (scan dmap (scan dmap st0 ps t1).state ps t2).detected id = some g2 →
      ∃ g1, jmGet (scan dmap st0 ps t1).detected id = some g1
        ∧ g2.timestamp = g1.timestamp := by
    intro id g2 hg2
    have hg2F : jmGet (ps.foldl (stepProcess dmap (scan dmap st0 ps t1).state.timestamps t2)
        ⟨[], (scan dmap st0 ps t1).state.cache, []⟩).detected id = some g2 := hg2
    refine rescan_fold_invariant dmap (scan dmap st0 ps t1).state.timestamps t2
      (scan dmap st0 ps t1).detected
      (ps.foldl (stepProcess dmap st0.timestamps t1) ⟨[], st0.cache, []⟩).cache
      ?_ ps ⟨[], (scan dmap st0 ps t1).state.cache, []⟩ ?_ ?_ ?_ ?_ id g2 hg2F
    · intro id2 g1 hg1
      obtain ⟨hgid, htr, hts, _⟩ := hchar1.1 id2 g1 hg1
      exact ⟨hts, htr ▸ truthyOr_ne_zero st0.timestamps id2 t1 h1⟩
    · intro k hk hsome
      have : jmGet (cacheGc (ps.foldl (stepProcess dmap st0.timestamps t1)
          ⟨[], st0.cache, []⟩).cache (ps.foldl (stepProcess dmap st0.timestamps t1)
          ⟨[], st0.cache, []⟩).seen) k =
          jmGet (ps.foldl (stepProcess dmap st0.timestamps t1) ⟨[], st0.cache, []⟩).cache k :=
        jmGet_cacheGc _ _ k hk
      show (jmGet (cacheGc (ps.foldl (stepProcess dmap st0.timestamps t1)
          ⟨[], st0.cache, []⟩).cache (ps.foldl (stepProcess dmap st0.timestamps t1)
          ⟨[], st0.cache, []⟩).seen) k).isSome
      rw [this]
      exact hsome
    · intro p hp c hcq
      have hcq2 : jmGet (ps.foldl (stepProcess dmap st0.timestamps t1)
          ⟨[], st0.cache, []⟩).cache (keyOfP p) = some c := by
        have heq : jmGet (cacheGc (ps.foldl (stepProcess dmap st0.timestamps t1)
            ⟨[], st0.cache, []⟩).cache (ps.foldl (stepProcess dmap st0.timestamps t1)
            ⟨[], st0.cache, []⟩).seen) (keyOfP p) =
            jmGet (ps.foldl (stepProcess dmap st0.timestamps t1) ⟨[], st0.cache, []⟩).cache
              (keyOfP p) :=
          jmGet_cacheGc _ _ _ (nul_mem_keyOfP p)
        rw [← heq]
        exact hcq
      exact fold_key_detected dmap st0.timestamps t1 ps ⟨[], st0.cache, []⟩ p hp c hcq2
    · intro id2 g hg
      cases hg
    · intro p hp hcf
      rintro ⟨hv, hf, hm⟩
      have := fold_key_match_present dmap st0.timestamps t1 ps ⟨[], st0.cache, []⟩ p hp hv hf hm
      rw [hcf] at this
      cases this
  refine ⟨hmain, ?_, ?_⟩
  · intro id g2 hg2
    obtain ⟨g1, hg1, hteq⟩ := hmain id g2 hg2
    have hchar2 := scan_state_char dmap (scan dmap st0 ps t1).state ps t2
    obtain ⟨_, _, _, hev2⟩ := hchar2.1 id g2 hg2
    obtain ⟨_, _, _, hev1⟩ := hchar1.1 id g1 hg1
    rw [hev2, hev1, hteq]
  · intro st ps2 now id g hnone hg
    have hchar := scan_state_char dmap st ps2 now
    obtain ⟨_, htr, _, _⟩ := hchar.1 id g hg
    rw [htr]
    unfold truthyOr
    rw [hnone]

/-- C6: when a game id that was active before a scan (it has a stored
timestamp) is not detected by that scan, the scan removes its entries from
the timestamps, names, and pids maps and emits exactly one clear-activity
event for it, carrying the stored pid. -/
theorem scan_clears_lost_game (dmap : List (JSStr × List DetectableGame)) (st0 : EngineState)
    (ps : List ProcessEntry) (now : Nat) (id : JSStr) (t0 : Nat)
    (hnd : (jmKeys st0.timestamps).Nodup)
    (hact : jmGet st0.timestamps id = some t0)
    (hlost : jmGet (scan dmap st0 ps now).detected id = none) :
    jmGet (scan dmap st0 ps now).state.timestamps id = none
    ∧ jmGet (scan dmap st0 ps now).state.names id = none
    ∧ jmGet (scan dmap st0 ps now).state.pids id = none
    ∧ clearsFor (scan dmap st0 ps now).events id = [jmGet st0.pids id] := by
  have hok := scanAcc_detectedOk dmap st0 ps now
  have hndd := scanAcc_nodup dmap st0 ps now
  obtain ⟨hfact1, hfact2, hfact3⟩ :=
    detected_games_facts st0.timestamps now
      (ps.foldl (stepProcess dmap st0.timestamps now) ⟨[], st0.cache, []⟩).detected hok hndd
  have HG : ∀ g ∈ (ps.foldl (stepProcess dmap st0.timestamps now) ⟨[], st0.cache, []⟩).detected.map (·.2),
      ∀ t, jmGet (⟨st0.timestamps, st0.names, st0.pids, []⟩ : EmitState).ts g.id = some t →
        t ≠ 0 → g.timestamp = t := by
    intro g hg t hl hz
    have := (hfact1 g hg).1
    rw [this]
    unfold truthyOr
    simp only [] at hl
    rw [hl]
    simp [hz]
  obtain ⟨hf1, hf2, hf3⟩ := handleFold_char _ ⟨st0.timestamps, st0.names, st0.pids, []⟩ hfact2 HG
  have hlostF : jmGet (ps.foldl (stepProcess dmap st0.timestamps now)
      ⟨[], st0.cache, []⟩).detected id = none := hlost
  have hnact : ∀ g ∈ (ps.foldl (stepProcess dmap st0.timestamps now) ⟨[], st0.cache, []⟩).detected.map (·.2),
      g.id ≠ id := by
    intro g2 hg2 heq
    have := (hfact3 id).mp ⟨g2, hg2, heq⟩
    rw [hlostF] at this
    cases this
  have hactiveno : id ∉ ((ps.foldl (stepProcess dmap st0.timestamps now) ⟨[], st0.cache, []⟩).detected.map (·.2)).map DetectedGame.id := by
    intro hmem
    obtain ⟨g2, hg2, heq⟩ := List.mem_map.mp hmem
    exact hnact g2 hg2 heq
  obtain ⟨hts, hnames, hpids⟩ := hf2 id hnact
  have hmemkeys : id ∈ jmKeys (((ps.foldl (stepProcess dmap st0.timestamps now)
      ⟨[], st0.cache, []⟩).detected.map (·.2)).foldl handleOne
      ⟨st0.timestamps, st0.names, st0.pids, []⟩).ts := by
    rw [← jmGet_isSome_iff_mem_keys, hts]
    simp only []
    rw [hact]
    rfl
  have hkeysnd : (jmKeys (((ps.foldl (stepProcess dmap st0.timestamps now)
      ⟨[], st0.cache, []⟩).detected.map (·.2)).foldl handleOne
      ⟨st0.timestamps, st0.names, st0.pids, []⟩).ts).Nodup :=
    handleFold_ts_nodup _ _ hnd
  refine ⟨(scan_state_char dmap st0 ps now).2 id hlost, ?_, ?_, ?_⟩
  · rw [scan_eq]
    simp only []
    unfold handleScanResults cleanupLostGames
    exact (cleanupFold_lost_maps _ _
      (((ps.foldl (stepProcess dmap st0.timestamps now) ⟨[], st0.cache, []⟩).detected.map (·.2)).foldl
        handleOne ⟨st0.timestamps, st0.names, st0.pids, []⟩)
      id hactiveno hmemkeys).1
  · rw [scan_eq]
    simp only []
    unfold handleScanResults cleanupLostGames
    exact (cleanupFold_lost_maps _ _
      (((ps.foldl (stepProcess dmap st0.timestamps now) ⟨[], st0.cache, []⟩).detected.map (·.2)).foldl
        handleOne ⟨st0.timestamps, st0.names, st0.pids, []⟩)
      id hactiveno hmemkeys).2
  · rw [scan_eq]
    simp only []
    unfold handleScanResults cleanupLostGames
    rw [cleanupFold_clears _ _
      (((ps.foldl (stepProcess dmap st0.timestamps now) ⟨[], st0.cache, []⟩).detected.map (·.2)).foldl
        handleOne ⟨st0.timestamps, st0.names, st0.pids, []⟩)
      id hactiveno hmemkeys hkeysnd]
    rw [hf3, clearsFor_append, clearsFor_map_set, hpids]
    rfl


/-- C3 counterexample: with two games sharing one executable name, a process
detected for game `1001` on the first scan is no longer in the result of an
immediate rescan of the same process list (the cache keeps only the last
matching game), so the rescan's detected set is not identical to the first
scan's. -/
theorem scan_rescan_not_idempotent :
    (jmGet (scan dmapTwoGames st0Empty psOneGame 100).detected (("1001").data)).isSome = true
    ∧ jmGet (scan dmapTwoGames (scan dmapTwoGames st0Empty psOneGame 100).state
        psOneGame 200).detected (("1001").data) = none := by
  decide

theorem scan_rescan_subset_witness :
    ∃ g1, jmGet (scan dmapTwoGames st0Empty psOneGame 100).detected (("1002").data) = some g1
      ∧ (⟨(("1002").data), (("Game B").data), 42, 100⟩ : DetectedGame).timestamp = g1.timestamp :=
  (scan_rescan_subset dmapTwoGames st0Empty psOneGame 100 200 (by decide)).1
    (("1002").data) (⟨(("1002").data), (("Game B").data), 42, 100⟩) (by decide)

theorem scan_clears_lost_game_witness :
    jmGet (scan [] stLost [] 60).state.timestamps (("999").data) = none
    ∧ jmGet (scan [] stLost [] 60).state.names (("999").data) = none
    ∧ jmGet (scan [] stLost [] 60).state.pids (("999").data) = none
    ∧ clearsFor (scan [] stLost [] 60).events (("999").data) = [jmGet stLost.pids (("999").data)] :=
  scan_clears_lost_game [] stLost [] 60 (("999").data) 50 (by decide) (by decide) (by decide)
